import Mathlib

/-!
Verification of the dataset identity and query-matching engine of
`satpy/dataset.py` against its natural-language specification.

The Python source is shallowly embedded: every definition below translates a
function or method of `satpy/dataset.py` (the source file is cited next to each
definition).  Modelling conventions, fixed once here:

* Python numbers (ints and floats) are modelled as exact rationals (`Rat`).
  Floating-point rounding is out of scope.  Equality between a number and a
  `ValueList` enum member follows Python `int` semantics: the reflected
  `ValueList.__eq__` (which compares `self.name == other`) runs first because
  `ValueList` is an `int` subclass that overrides `__eq__`, so the comparison
  is `False` in both directions.
* Rational arithmetic is written with kernel-computable primitives:
  `mkRat`-based addition (`ratAdd`), `Rat.blt`-based comparisons.  Bridge
  lemmas connect them to the ordinary `+`, `<`, `≤` of `Rat`.
* Python strings are compared lexicographically by code point; `strLtB` below
  implements exactly that on the character list of a `String`.
* `None` is the `Value.null` constructor; a Python exception is an `.error` of
  the `Except` monad with a `PyErr` tag naming the exception kind.
* Identity (`is`) checks of the metadata combiner are modelled by an explicit
  object-id tag carried by metadata values (`MetaVal`).
-/

namespace SatpyModel

/-- Kind of Python exception surfaced by the embedded operations.  The source
raises `ValueError` both for a missing required field and for an out-of-enum
value; the two are distinguished here by their message, exactly as callers of
the source distinguish them. -/
inductive PyErr where
  | typeError : PyErr
  | valueError : PyErr
  | missingRequired : String → PyErr
  | invalidEnumValue : PyErr
  | invalidSchema : PyErr
  | notImplGeneralize : PyErr
  deriving Repr, DecidableEq

/-- Rational addition written through `mkRat` so that the kernel can evaluate
it on concrete inputs (the library `Rat.add` does not reduce definitionally).
`ratAdd_eq_add` shows it agrees with `+`. -/
def ratAdd (a b : Rat) : Rat :=
  mkRat (a.num * (b.den : Int) + b.num * (a.den : Int)) (a.den * b.den)

theorem ratAdd_eq_add (a b : Rat) : ratAdd a b = a + b := by
  rw [ratAdd, Rat.add_def']

/-- Strict comparison of rationals, kernel-computable. -/
def ratLtB (a b : Rat) : Bool := Rat.blt a b

/-- Non-strict comparison of rationals, kernel-computable. -/
def ratLeB (a b : Rat) : Bool := !(Rat.blt b a)

/-- Equality test of rationals (the `Rat` representation is canonical). -/
def ratEqB (a b : Rat) : Bool := decide (a = b)

theorem ratLtB_iff (a b : Rat) : ratLtB a b = true ↔ a < b := Iff.rfl

theorem ratLeB_iff (a b : Rat) : ratLeB a b = true ↔ a ≤ b := by
  simp only [ratLeB, Bool.not_eq_true', LE.le, Rat.instLE]

theorem ratEqB_iff (a b : Rat) : ratEqB a b = true ↔ a = b := by
  simp [ratEqB]

/-- Negation of a rational, kernel-computable (structure negation). -/
def ratNeg (a : Rat) : Rat := ⟨-a.num, a.den, a.den_nz, (Int.natAbs_neg a.num) ▸ a.reduced⟩

theorem ratNeg_eq_neg (a : Rat) : ratNeg a = -a := rfl

/-- Subtraction of rationals via `ratAdd`/`ratNeg`, kernel-computable. -/
def ratSub (a b : Rat) : Rat := ratAdd a (ratNeg b)

theorem ratSub_eq_sub (a b : Rat) : ratSub a b = a - b := by
  rw [ratSub, ratNeg_eq_neg, ratAdd_eq_add, sub_eq_add_neg]

/-- Absolute value of a rational, kernel-computable. -/
def ratAbs (a : Rat) : Rat := if ratLtB a 0 then ratNeg a else a

theorem ratAbs_eq_abs (a : Rat) : ratAbs a = |a| := by
  rw [ratAbs, ratNeg_eq_neg]
  rcases lt_or_le a 0 with h | h
  · rw [if_pos ((ratLtB_iff a 0).mpr h), abs_of_neg h]
  · rw [if_neg (by rw [Bool.not_eq_true, ← Bool.not_eq_true' ]; exact (ratLeB_iff 0 a).mpr h),
      abs_of_nonneg h]

theorem ratAbs_nonneg (a : Rat) : 0 ≤ ratAbs a := by
  rw [ratAbs_eq_abs]; exact abs_nonneg a

/-- Lexicographic strict order on character lists (Python's `str` comparison is
lexicographic by code point). -/
def charListLt : List Char → List Char → Bool
  | [], [] => false
  | [], _ :: _ => true
  | _ :: _, [] => false
  | c :: cs, d :: ds => if c = d then charListLt cs ds else decide (c < d)

/-- Python `str` strict comparison (`<`), by code points.  The library
`String.ltb` does not reduce in the kernel, so it is re-implemented on the
underlying character list. -/
def strLtB (a b : String) : Bool := charListLt a.data b.data

/-- Python values as they appear in identifiers, queries and raw attribute
mappings.  `tup` is a plain Python `tuple`, `modT` a `ModifierTuple` (a `tuple`
subclass with list-transparent equality), `list` a Python `list`, `enumV` a
member of a `ValueList` enum (its name and its 1-based `IntEnum` ordinal), and
`wl` a `WavelengthRange` namedtuple `(min, central, max, unit)`. -/
inductive Value where
  | str : String → Value
  | num : Rat → Value
  | enumV : String → Nat → Value
  | wl : Rat → Rat → Rat → String → Value
  | tup : List Value → Value
  | modT : List Value → Value
  | list : List Value → Value
  | null : Value
  deriving Repr

/-- Python `==` between a number (on the left) and an arbitrary value.  The
only true cases are numeric equality and `WavelengthRange.__eq__`'s reflected
containment check (`min <= number <= max`, source lines 88-94 and 120-130).
Comparison with an enum member is `False`: the member's overriding reflected
`__eq__` compares its *name* to the number. -/
def numEqVal (x : Rat) : Value → Bool
  | .num b => ratEqB x b
  | .wl m _ M _ => ratLeB m x && ratLeB x M
  | _ => false

/-- Python `==` between a string (on the left) and an arbitrary value.  A
`ValueList` member equals the string holding its name (source lines 46-48). -/
def strEqVal (s : String) : Value → Bool
  | .str t => s == t
  | .enumV n _ => s == n
  | _ => false

/-- Python `==` with an arbitrary value on the left and a number on the right
(the mirror of `numEqVal`; again containment for a `WavelengthRange` and
`False` against an enum member). -/
def valEqNum : Value → Rat → Bool
  | .num b, x => ratEqB b x
  | .wl m _ M _, x => ratLeB m x && ratLeB x M
  | _, _ => false

/-- Python `==` with an arbitrary value on the left and a string on the right. -/
def valEqStr : Value → String → Bool
  | .str t, s => t == s
  | .enumV n _, s => n == s
  | _, _ => false

/-- `WavelengthRange.__eq__` against a `tuple` (or tuple subclass): a length-3
sequence is compared against `self[:3]`, a length-4 one against the whole
namedtuple (source lines 92-94).  The range's own components are on the left
of each elementwise `==`. -/
def wlTupEq (m c M : Rat) (u : String) : List Value → Bool
  | [a, b, d] => numEqVal m a && numEqVal c b && numEqVal M d
  | [a, b, d, e] => numEqVal m a && numEqVal c b && numEqVal M d && strEqVal u e
  | _ => false

/-- `WavelengthRange.__eq__` against a Python `list`: only the length-3 prefix
comparison applies; for any other length the fallback `tuple == list`
comparison is `False`. -/
def wlListEq (m c M : Rat) : List Value → Bool
  | [a, b, d] => numEqVal m a && numEqVal c b && numEqVal M d
  | _ => false

/-- Built-in `tuple.__eq__` of a length-unknown sequence (on the left) against
the four components of a `WavelengthRange`: this is the path taken by
`ModifierTuple == WavelengthRange`, whose left operand's class is not a
superclass of `WavelengthRange`, so plain tuple equality (requiring equal
length 4) runs with the sequence's elements on the left. -/
def seqWlEq (l : List Value) (m c M : Rat) (u : String) : Bool :=
  match l with
  | [a, b, d, e] => valEqNum a m && valEqNum b c && valEqNum d M && valEqStr e u
  | _ => false

mutual

/-- Python `==` on embedded values, with the left/right operand order of the
source preserved (the relation is not symmetric: e.g. `WavelengthRange == enum`
is a containment check on the member's integer value, while `enum ==
WavelengthRange` compares the member's name and is `False`).
Cases follow `ValueList.__eq__` (lines 46-48), `WavelengthRange.__eq__` and
`__contains__` (lines 78-94, 120-130), `ModifierTuple.__eq__` (lines 165-169)
and the built-in `tuple`/`list`/`float` comparisons, including Python's
reflected-operand priority for subclasses. -/
def valueEq : Value → Value → Bool
  | .null, .null => true
  | .null, _ => false
  | .str s, b => strEqVal s b
  | .num x, b => numEqVal x b
  | .enumV n _, .str s => n == s
  | .enumV n _, .enumV m _ => n == m
  | .enumV _ _, _ => false
  | .wl m _ M _, .num x => ratLeB m x && ratLeB x M
  | .wl m c M u, .wl m' c' M' u' =>
      ratEqB m m' && ratEqB c c' && ratEqB M M' && (u == u')
  | .wl m _ M _, .enumV _ o => ratLeB m (o : Rat) && ratLeB (o : Rat) M
  | .wl m c M u, .tup l => wlTupEq m c M u l
  | .wl m c M u, .modT l => wlTupEq m c M u l
  | .wl m c M _, .list l => wlListEq m c M l
  | .wl _ _ _ _, _ => false
  | .tup l, .wl m c M u => wlTupEq m c M u l
  | .tup l, .tup l' => valueEqL l l'
  | .tup l, .modT l' => valueEqL l' l
  | .tup _, _ => false
  | .modT l, .wl m c M u => seqWlEq l m c M u
  | .modT l, .tup l' => valueEqL l l'
  | .modT l, .modT l' => valueEqL l l'
  | .modT l, .list l' => valueEqL l l'
  | .modT _, _ => false
  | .list l, .wl m c M _ => wlListEq m c M l
  | .list l, .modT l' => valueEqL l' l
  | .list l, .list l' => valueEqL l l'
  | .list _, _ => false
termination_by a b => sizeOf a + sizeOf b
decreasing_by all_goals (simp_wf ; omega)

/-- Elementwise Python `==` of two sequences (false on length mismatch). -/
def valueEqL : List Value → List Value → Bool
  | [], [] => true
  | x :: xs, y :: ys => valueEq x y && valueEqL xs ys
  | _, _ => false
termination_by l m => sizeOf l + sizeOf m
decreasing_by all_goals (simp_wf ; omega)

end

/-- Python `needle in container` for a list/tuple of values: CPython compares
`element == needle` with the element on the left. -/
def pyContains (l : List Value) (needle : Value) : Bool :=
  l.any (fun e => valueEq e needle)

@[simp] theorem valueEq_null_null : valueEq .null .null = true := by rw [valueEq]

@[simp] theorem valueEq_str (s : String) (b : Value) :
    valueEq (.str s) b = strEqVal s b := by rw [valueEq]

@[simp] theorem valueEq_num (x : Rat) (b : Value) :
    valueEq (.num x) b = numEqVal x b := by rw [valueEq]

@[simp] theorem valueEq_tup_tup (l l' : List Value) :
    valueEq (.tup l) (.tup l') = valueEqL l l' := by rw [valueEq]

@[simp] theorem valueEq_tup_modT (l l' : List Value) :
    valueEq (.tup l) (.modT l') = valueEqL l' l := by rw [valueEq]

@[simp] theorem valueEq_enum_str (n : String) (o : Nat) (s : String) :
    valueEq (.enumV n o) (.str s) = (n == s) := by rw [valueEq]

@[simp] theorem valueEq_enum_enum (n : String) (o : Nat) (m : String) (p : Nat) :
    valueEq (.enumV n o) (.enumV m p) = (n == m) := by rw [valueEq]

@[simp] theorem valueEq_enum_num (n : String) (o : Nat) (x : Rat) :
    valueEq (.enumV n o) (.num x) = false := by rw [valueEq] ; all_goals simp

@[simp] theorem valueEq_enum_wl (n : String) (o : Nat) (m c M : Rat) (u : String) :
    valueEq (.enumV n o) (.wl m c M u) = false := by rw [valueEq] ; all_goals simp

@[simp] theorem valueEq_enum_tup (n : String) (o : Nat) (l : List Value) :
    valueEq (.enumV n o) (.tup l) = false := by rw [valueEq] ; all_goals simp

@[simp] theorem valueEq_enum_modT (n : String) (o : Nat) (l : List Value) :
    valueEq (.enumV n o) (.modT l) = false := by rw [valueEq] ; all_goals simp

@[simp] theorem valueEq_enum_list (n : String) (o : Nat) (l : List Value) :
    valueEq (.enumV n o) (.list l) = false := by rw [valueEq] ; all_goals simp

@[simp] theorem valueEq_enum_null (n : String) (o : Nat) :
    valueEq (.enumV n o) .null = false := by rw [valueEq] ; all_goals simp

@[simp] theorem valueEq_wl_num (m c M : Rat) (u : String) (x : Rat) :
    valueEq (.wl m c M u) (.num x) = (ratLeB m x && ratLeB x M) := by rw [valueEq]

@[simp] theorem valueEq_wl_wl (m c M : Rat) (u : String) (m' c' M' : Rat) (u' : String) :
    valueEq (.wl m c M u) (.wl m' c' M' u') =
      (ratEqB m m' && ratEqB c c' && ratEqB M M' && (u == u')) := by rw [valueEq]

@[simp] theorem valueEq_wl_enum (m c M : Rat) (u : String) (n : String) (o : Nat) :
    valueEq (.wl m c M u) (.enumV n o) = (ratLeB m (o : Rat) && ratLeB (o : Rat) M) := by
  rw [valueEq]

@[simp] theorem valueEq_wl_tup (m c M : Rat) (u : String) (l : List Value) :
    valueEq (.wl m c M u) (.tup l) = wlTupEq m c M u l := by rw [valueEq]

@[simp] theorem valueEq_wl_modT (m c M : Rat) (u : String) (l : List Value) :
    valueEq (.wl m c M u) (.modT l) = wlTupEq m c M u l := by rw [valueEq]

@[simp] theorem valueEq_wl_list (m c M : Rat) (u : String) (l : List Value) :
    valueEq (.wl m c M u) (.list l) = wlListEq m c M l := by rw [valueEq]

@[simp] theorem valueEq_wl_str (m c M : Rat) (u : String) (s : String) :
    valueEq (.wl m c M u) (.str s) = false := by rw [valueEq] ; all_goals simp

@[simp] theorem valueEq_wl_null (m c M : Rat) (u : String) :
    valueEq (.wl m c M u) .null = false := by rw [valueEq] ; all_goals simp

@[simp] theorem valueEq_tup_wl (l : List Value) (m c M : Rat) (u : String) :
    valueEq (.tup l) (.wl m c M u) = wlTupEq m c M u l := by rw [valueEq]

@[simp] theorem valueEq_tup_str (l : List Value) (s : String) :
    valueEq (.tup l) (.str s) = false := by rw [valueEq] ; all_goals simp

@[simp] theorem valueEq_tup_num (l : List Value) (x : Rat) :
    valueEq (.tup l) (.num x) = false := by rw [valueEq] ; all_goals simp

@[simp] theorem valueEq_tup_enum (l : List Value) (n : String) (o : Nat) :
    valueEq (.tup l) (.enumV n o) = false := by rw [valueEq] ; all_goals simp

@[simp] theorem valueEq_tup_list (l l' : List Value) :
    valueEq (.tup l) (.list l') = false := by rw [valueEq] ; all_goals simp

@[simp] theorem valueEq_tup_null (l : List Value) :
    valueEq (.tup l) .null = false := by rw [valueEq] ; all_goals simp

@[simp] theorem valueEq_modT_wl (l : List Value) (m c M : Rat) (u : String) :
    valueEq (.modT l) (.wl m c M u) = seqWlEq l m c M u := by rw [valueEq]

@[simp] theorem valueEq_modT_tup (l l' : List Value) :
    valueEq (.modT l) (.tup l') = valueEqL l l' := by rw [valueEq]

@[simp] theorem valueEq_modT_modT (l l' : List Value) :
    valueEq (.modT l) (.modT l') = valueEqL l l' := by rw [valueEq]

@[simp] theorem valueEq_modT_list (l l' : List Value) :
    valueEq (.modT l) (.list l') = valueEqL l l' := by rw [valueEq]

@[simp] theorem valueEq_modT_str (l : List Value) (s : String) :
    valueEq (.modT l) (.str s) = false := by rw [valueEq] ; all_goals simp

@[simp] theorem valueEq_modT_num (l : List Value) (x : Rat) :
    valueEq (.modT l) (.num x) = false := by rw [valueEq] ; all_goals simp

@[simp] theorem valueEq_modT_enum (l : List Value) (n : String) (o : Nat) :
    valueEq (.modT l) (.enumV n o) = false := by rw [valueEq] ; all_goals simp

@[simp] theorem valueEq_modT_null (l : List Value) :
    valueEq (.modT l) .null = false := by rw [valueEq] ; all_goals simp

@[simp] theorem valueEq_list_wl (l : List Value) (m c M : Rat) (u : String) :
    valueEq (.list l) (.wl m c M u) = wlListEq m c M l := by rw [valueEq]

@[simp] theorem valueEq_list_modT (l l' : List Value) :
    valueEq (.list l) (.modT l') = valueEqL l' l := by rw [valueEq]

@[simp] theorem valueEq_list_list (l l' : List Value) :
    valueEq (.list l) (.list l') = valueEqL l l' := by rw [valueEq]

@[simp] theorem valueEq_list_str (l : List Value) (s : String) :
    valueEq (.list l) (.str s) = false := by rw [valueEq] ; all_goals simp

@[simp] theorem valueEq_list_num (l : List Value) (x : Rat) :
    valueEq (.list l) (.num x) = false := by rw [valueEq] ; all_goals simp

@[simp] theorem valueEq_list_enum (l : List Value) (n : String) (o : Nat) :
    valueEq (.list l) (.enumV n o) = false := by rw [valueEq] ; all_goals simp

@[simp] theorem valueEq_list_tup (l l' : List Value) :
    valueEq (.list l) (.tup l') = false := by rw [valueEq] ; all_goals simp

@[simp] theorem valueEq_list_null (l : List Value) :
    valueEq (.list l) .null = false := by rw [valueEq] ; all_goals simp

@[simp] theorem valueEq_null_str (s : String) : valueEq .null (.str s) = false := by rw [valueEq] ; all_goals simp

@[simp] theorem valueEq_null_num (x : Rat) : valueEq .null (.num x) = false := by rw [valueEq] ; all_goals simp

@[simp] theorem valueEq_null_enum (n : String) (o : Nat) :
    valueEq .null (.enumV n o) = false := by rw [valueEq] ; all_goals simp

@[simp] theorem valueEq_null_wl (m c M : Rat) (u : String) :
    valueEq .null (.wl m c M u) = false := by rw [valueEq] ; all_goals simp

@[simp] theorem valueEq_null_tup (l : List Value) : valueEq .null (.tup l) = false := by
  rw [valueEq] ; all_goals simp

@[simp] theorem valueEq_null_modT (l : List Value) : valueEq .null (.modT l) = false := by
  rw [valueEq] ; all_goals simp

@[simp] theorem valueEq_null_list (l : List Value) : valueEq .null (.list l) = false := by
  rw [valueEq] ; all_goals simp

@[simp] theorem valueEqL_nil : valueEqL [] [] = true := by rw [valueEqL]

@[simp] theorem valueEqL_cons (x y : Value) (xs ys : List Value) :
    valueEqL (x :: xs) (y :: ys) = (valueEq x y && valueEqL xs ys) := by rw [valueEqL]

@[simp] theorem valueEqL_nil_cons (y : Value) (ys : List Value) :
    valueEqL [] (y :: ys) = false := by rw [valueEqL] ; all_goals simp

@[simp] theorem valueEqL_cons_nil (x : Value) (xs : List Value) :
    valueEqL (x :: xs) [] = false := by rw [valueEqL] ; all_goals simp

mutual

theorem valueEq_refl : (v : Value) → valueEq v v = true
  | .str s => by simp [strEqVal]
  | .num q => by simp [numEqVal, ratEqB_iff]
  | .enumV n o => by rw [valueEq] ; all_goals simp
  | .wl m c M u => by rw [valueEq] ; all_goals simp [ratEqB_iff]
  | .tup l => by rw [valueEq_tup_tup] ; exact valueEqL_refl l
  | .modT l => by rw [valueEq] ; exact valueEqL_refl l
  | .list l => by rw [valueEq] ; exact valueEqL_refl l
  | .null => valueEq_null_null

theorem valueEqL_refl : (l : List Value) → valueEqL l l = true
  | [] => valueEqL_nil
  | x :: xs => by
      rw [valueEqL_cons, Bool.and_eq_true]
      exact ⟨valueEq_refl x, valueEqL_refl xs⟩

end

/-! Python strict comparison (`<`) between embedded values.  Mixed-type
comparisons raise `TypeError` exactly as in CPython; the special `None`
fallbacks of `WavelengthRange.__lt__`/`__gt__` (source lines 100-110) are the
only comparisons involving `None` that do not raise. -/

/-- Python `x < y` with a number `x` on the left (an enum member on the right
compares by its integer value, since `ValueList` does not override `__lt__`). -/
def pyLtNumL (x : Rat) : Value → Except PyErr Bool
  | .num b => .ok (ratLtB x b)
  | .enumV _ o => .ok (ratLtB x (o : Rat))
  | _ => .error .typeError

/-- Python `x < y` with a string `x` on the left. -/
def pyLtStrL (s : String) : Value → Except PyErr Bool
  | .str t => .ok (strLtB s t)
  | _ => .error .typeError

/-- Python `x > y` with a number `x` on the left. -/
def pyGtNumL (x : Rat) : Value → Except PyErr Bool
  | .num b => .ok (ratLtB b x)
  | .enumV _ o => .ok (ratLtB (o : Rat) x)
  | _ => .error .typeError

/-- Python `x > y` with a string `x` on the left. -/
def pyGtStrL (s : String) : Value → Except PyErr Bool
  | .str t => .ok (strLtB t s)
  | _ => .error .typeError

/-- Python `e < x` with a number `x` on the right. -/
def pyLtValNum (e : Value) (x : Rat) : Except PyErr Bool :=
  match e with
  | .num b => .ok (ratLtB b x)
  | .enumV _ o => .ok (ratLtB (o : Rat) x)
  | _ => .error .typeError

/-- Python `e < s` with a string `s` on the right. -/
def pyLtValStr (e : Value) (s : String) : Except PyErr Bool :=
  match e with
  | .str t => .ok (strLtB t s)
  | _ => .error .typeError

/-- Lexicographic tuple `<` where the left tuple's elements are the scalar
components of a `WavelengthRange` (three numbers and the unit string); used
for `WavelengthRange < tuple`.  Python's tuple comparison skips `==`-equal
prefixes (left element on the left) and decides at the first difference,
falling back to a length comparison. -/
def wlCompsLt : List Value → List Value → Except PyErr Bool
  | [], [] => .ok false
  | [], _ :: _ => .ok true
  | _ :: _, [] => .ok false
  | x :: xs, y :: ys =>
      if valueEq x y then wlCompsLt xs ys
      else
        match x with
        | .num m => pyLtNumL m y
        | .str s => pyLtStrL s y
        | _ => .error .typeError

/-- Lexicographic tuple `>` with the range components on the left; used for
`tuple < WavelengthRange`, which Python evaluates through the reflected
`WavelengthRange.__gt__` (the range's class is a `tuple` subclass overriding
`__gt__`, so it has reflected-operand priority). -/
def wlCompsGt : List Value → List Value → Except PyErr Bool
  | [], [] => .ok false
  | [], _ :: _ => .ok false
  | _ :: _, [] => .ok true
  | x :: xs, y :: ys =>
      if valueEq x y then wlCompsGt xs ys
      else
        match x with
        | .num m => pyGtNumL m y
        | .str s => pyGtStrL s y
        | _ => .error .typeError

/-- Lexicographic tuple `<` with the range components on the right; used for
`ModifierTuple < WavelengthRange` (no reflected priority there, so plain
`tuple.__lt__` runs with the modifier tuple's elements on the left). -/
def seqWlLt : List Value → List Value → Except PyErr Bool
  | [], [] => .ok false
  | [], _ :: _ => .ok true
  | _ :: _, [] => .ok false
  | x :: xs, y :: ys =>
      if valueEq x y then seqWlLt xs ys
      else
        match y with
        | .num m => pyLtValNum x m
        | .str s => pyLtValStr x s
        | _ => .error .typeError

mutual

/-- Python `a < b` on embedded values: numeric and string comparisons, the
`None` fallbacks of `WavelengthRange.__lt__`/`__gt__`, lexicographic
tuple/list comparison (with `==`-skipping of equal prefixes), and `TypeError`
for every unsupported mixed-type pair, exactly as CPython dispatches them. -/
def pyLt : Value → Value → Except PyErr Bool
  | .num a, .num b => .ok (ratLtB a b)
  | .num a, .enumV _ o => .ok (ratLtB a (o : Rat))
  | .enumV _ o, .num b => .ok (ratLtB (o : Rat) b)
  | .enumV _ o, .enumV _ p => .ok (ratLtB (o : Rat) (p : Rat))
  | .str s, .str t => .ok (strLtB s t)
  | .null, .wl _ _ _ _ => .ok true
  | .wl _ _ _ _, .null => .ok false
  | .wl m c M u, .wl m' c' M' u' =>
      if !(ratEqB m m') then .ok (ratLtB m m')
      else if !(ratEqB c c') then .ok (ratLtB c c')
      else if !(ratEqB M M') then .ok (ratLtB M M')
      else if !(u == u') then .ok (strLtB u u')
      else .ok false
  | .wl m c M u, .tup l => wlCompsLt [.num m, .num c, .num M, .str u] l
  | .wl m c M u, .modT l => wlCompsLt [.num m, .num c, .num M, .str u] l
  | .tup l, .wl m c M u => wlCompsGt [.num m, .num c, .num M, .str u] l
  | .modT l, .wl m c M u => seqWlLt l [.num m, .num c, .num M, .str u]
  | .tup l, .tup l' => pyLtSeq l l'
  | .tup l, .modT l' => pyLtSeq l l'
  | .modT l, .tup l' => pyLtSeq l l'
  | .modT l, .modT l' => pyLtSeq l l'
  | .list l, .list l' => pyLtSeq l l'
  | _, _ => .error .typeError

/-- Lexicographic `<` of two same-kind Python sequences: skip the longest
`==`-equal prefix, compare the first differing elements, fall back to length. -/
def pyLtSeq : List Value → List Value → Except PyErr Bool
  | [], [] => .ok false
  | [], _ :: _ => .ok true
  | _ :: _, [] => .ok false
  | x :: xs, y :: ys => if valueEq x y then pyLtSeq xs ys else pyLt x y

end

/-- `WavelengthRange.__gt__` (source lines 106-110): always greater than
`None`, otherwise the superclass's lexicographic tuple comparison (with the
range's components on the left). -/
def wlGtB (m c M : Rat) (u : String) : Value → Except PyErr Bool
  | .null => .ok true
  | .wl m' c' M' u' =>
      if !(ratEqB m m') then .ok (ratLtB m' m)
      else if !(ratEqB c c') then .ok (ratLtB c' c)
      else if !(ratEqB M M') then .ok (ratLtB M' M)
      else if !(u == u') then .ok (strLtB u' u)
      else .ok false
  | .tup l => wlCompsGt [.num m, .num c, .num M, .str u] l
  | .modT l => wlCompsGt [.num m, .num c, .num M, .str u] l
  | _ => .error .typeError

/-- Distance values of the ranking algorithm: a finite float or `np.inf`. -/
inductive Dist where
  | fin : Rat → Dist
  | inf : Dist
  deriving Repr, DecidableEq

/-- Accumulation `distance += x` (adding anything to `np.inf` stays infinite). -/
def Dist.add : Dist → Dist → Dist
  | .fin a, .fin b => .fin (ratAdd a b)
  | _, _ => .inf

/-- Strict `<` on distances (`np.inf < np.inf` is false). -/
def distLtB : Dist → Dist → Bool
  | .fin a, .fin b => ratLtB a b
  | .fin _, .inf => true
  | .inf, _ => false

/-- Non-strict `<=` on distances. -/
def distLeB (a b : Dist) : Bool := !(distLtB b a)

/-- Helper of `WavelengthRange.distance` for sequence values:
`abs(value[1] - central)`. -/
def wlSeqCentralDist (c : Rat) (l : List Value) : Except PyErr Dist :=
  match l with
  | _ :: .num b :: _ => .ok (.fin (ratAbs (ratSub b c)))
  | _ :: .enumV _ o :: _ => .ok (.fin (ratAbs (ratSub (o : Rat) c)))
  | _ => .error .typeError

/-- `WavelengthRange.distance` (source lines 132-142): `np.inf` when the range
is not `==`-equal to the value; otherwise the absolute difference between the
value's central wavelength and the range's central wavelength (`value.central`
for a range, `value[1]` for a 3- or 4-sequence, the number itself otherwise;
an enum member subtracts by its integer value).  The `_` fallbacks raise
`TypeError`; they are unreachable because equality already failed for values
without a usable central component. -/
def wlDistance (m c M : Rat) (u : String) (v : Value) : Except PyErr Dist :=
  if valueEq (.wl m c M u) v then
    match v with
    | .wl _ c' _ _ => .ok (.fin (ratAbs (ratSub c' c)))
    | .num n => .ok (.fin (ratAbs (ratSub n c)))
    | .enumV _ o => .ok (.fin (ratAbs (ratSub (o : Rat) c)))
    | .tup l => wlSeqCentralDist c l
    | .modT l => wlSeqCentralDist c l
    | .list l => wlSeqCentralDist c l
    | _ => .error .typeError
  else .ok .inf

/-! Schema (`id_keys`) model and DataID construction. -/

/-- Association-list lookup modelling Python dict access (`d.get(k)` /
`k in d`).  Keys of genuine Python dicts are unique; all operations below go
through this first-occurrence lookup, so duplicate keys in a modelled list
behave as a dict whose later duplicates were ignored. -/
def alookup {α : Type} : List (String × α) → String → Option α
  | [], _ => none
  | (k, v) :: rest, key => if k == key then some v else alookup rest key

/-- The two concrete coercion types the schema can name (besides enums):
`WavelengthRange` and `ModifierTuple`. -/
inductive BaseType where
  | wavelengthT : BaseType
  | modifierT : BaseType
  deriving Repr, DecidableEq

/-- One raw schema entry, a Python dict with optional keys `required`,
`default`, `enum`, `type`, `transitive`.  `required : Option Bool` records
both the presence of the key (`isSome`, which is what the
`'required' in val` test of `convert_dict` sees) and its truthiness;
`defaultVal` is `Value.null` when the `default` key is absent or `None`
(indistinguishable through `val.get('default')`). -/
structure RawFieldSpec where
  required : Option Bool
  defaultVal : Value
  enumNames : Option (List String)
  baseType : Option BaseType
  transitive : Option Bool
  deriving Repr

/-- Effective field type after `fix_id_keys` fleshed out enums. -/
inductive FType where
  | enumT : List String → FType
  | wavelengthT : FType
  | modifierT : FType
  deriving Repr

/-- Schema entry after `fix_id_keys`. -/
structure FieldSpec where
  required : Option Bool
  defaultVal : Value
  ftype : Option FType
  transitive : Option Bool
  deriving Repr

/-- `DataID.fix_id_keys` on one entry: an entry with both `enum` and `type`
is rejected (`ValueError`), an `enum` list becomes a `ValueList` type.  The
member list of `ValueList(key, ' '.join(names))` is the given names in order
(1-based ordinals); names are assumed free of blanks and commas, the only
case the surrounding system produces, so the join/split round trip of the
`IntEnum` functional API is the identity.  A falsy (absent or empty) entry is
skipped by the source; both are handled identically by this general path. -/
def fixEntry : Option RawFieldSpec → Except PyErr (Option FieldSpec)
  | none => .ok none
  | some s =>
      match s.enumNames, s.baseType with
      | some _, some _ => .error .invalidSchema
      | some names, none => .ok (some ⟨s.required, s.defaultVal, some (.enumT names), s.transitive⟩)
      | none, some .wavelengthT => .ok (some ⟨s.required, s.defaultVal, some .wavelengthT, s.transitive⟩)
      | none, some .modifierT => .ok (some ⟨s.required, s.defaultVal, some .modifierT, s.transitive⟩)
      | none, none => .ok (some ⟨s.required, s.defaultVal, none, s.transitive⟩)

/-- `DataID.fix_id_keys` (source lines 389-402), entry by entry in order. -/
def fixIdKeys : List (String × Option RawFieldSpec) → Except PyErr (List (String × Option FieldSpec))
  | [] => .ok []
  | (k, e) :: rest => do
      let fe ← fixEntry e
      let frest ← fixIdKeys rest
      .ok ((k, fe) :: frest)

/-- Identity test against Python `None` (`value is None`). -/
def isNull : Value → Bool
  | .null => true
  | _ => false

/-- `ValueList.convert` (source lines 38-44): `cls[value]`, with `KeyError`
mapped to `ValueError`.  Looking up a member of a `ValueList` (even of another
one) succeeds by name, because `ValueList` hashes and compares by name; a
Python `list` is unhashable, so the lookup raises an uncaught `TypeError`;
everything else misses and raises the `ValueError`. -/
def enumConvert (names : List String) : Value → Except PyErr Value
  | .str s =>
      match names.findIdx? (· == s) with
      | some i => .ok (.enumV s (i + 1))
      | none => .error .invalidEnumValue
  | .enumV n _ =>
      match names.findIdx? (· == n) with
      | some i => .ok (.enumV n (i + 1))
      | none => .error .invalidEnumValue
  | .list _ => .error .typeError
  | _ => .error .invalidEnumValue

/-- `WavelengthRange.convert` (source lines 144-149): a 3- or 4-sequence is
re-packed as a range (a range itself is a 4-tuple, so it round-trips); a
sequence of any other arity raises `TypeError` from `cls(*wl)`; any
non-sequence value passes through unchanged.  Sequences whose components are
not three numbers (and an optional unit string) would build a degenerate
range object in Python; such values are outside this model and are mapped to
`TypeError`. -/
def wlConvert : Value → Except PyErr Value
  | .tup l =>
      match l with
      | [.num a, .num b, .num c] => .ok (.wl a b c "µm")
      | [.num a, .num b, .num c, .str u] => .ok (.wl a b c u)
      | _ => .error .typeError
  | .list l =>
      match l with
      | [.num a, .num b, .num c] => .ok (.wl a b c "µm")
      | [.num a, .num b, .num c, .str u] => .ok (.wl a b c u)
      | _ => .error .typeError
  | .modT l =>
      match l with
      | [.num a, .num b, .num c] => .ok (.wl a b c "µm")
      | [.num a, .num b, .num c, .str u] => .ok (.wl a b c u)
      | _ => .error .typeError
  | .wl a b c u => .ok (.wl a b c u)
  | v => .ok v

/-- `ModifierTuple.convert` (source lines 155-163): `None` passes through,
any tuple/list becomes a `ModifierTuple`, anything else raises `TypeError`. -/
def modConvert : Value → Except PyErr Value
  | .null => .ok .null
  | .modT l => .ok (.modT l)
  | .tup l => .ok (.modT l)
  | .list l => .ok (.modT l)
  | _ => .error .typeError

/-- Dispatch of `val['type'].convert(curated_val)`. -/
def typeConvert : FType → Value → Except PyErr Value
  | .enumT names, v => enumConvert names v
  | .wavelengthT, v => wlConvert v
  | .modifierT, v => modConvert v

/-- The test `key in keyvals or val.get('default') is not None or
val.get('required')` of `convert_dict`. -/
def triggerB (raw : List (String × Value)) (k : String) (s : FieldSpec) : Bool :=
  (alookup raw k).isSome || !(isNull s.defaultVal) || s.required == some true

/-- The resolution `keyvals.get(key, val.get('default'))` of `convert_dict`. -/
def resolvedVal (raw : List (String × Value)) (k : String) (s : FieldSpec) : Value :=
  match alookup raw k with
  | some v => v
  | none => s.defaultVal

/-- Loop body of `DataID.convert_dict` (source lines 404-427), iterating the
fixed schema entries in declaration order over a fixed raw mapping.  For a
non-null entry: the field is considered when `triggerB` holds; a null
resolved value raises if the entry *declares* `required` (with any value); a
declared type always converts (and its result, even `None`, is stored);
otherwise non-null values pass through.  For a null entry, non-null raw
values pass through. -/
def convertDictGo (raw : List (String × Value)) :
    List (String × Option FieldSpec) → Except PyErr (List (String × Value))
  | [] => .ok []
  | (k, none) :: rest =>
      match alookup raw k with
      | some v =>
          if isNull v then convertDictGo raw rest
          else do
            let tail ← convertDictGo raw rest
            .ok ((k, v) :: tail)
      | none => convertDictGo raw rest
  | (k, some s) :: rest =>
      if triggerB raw k s then
        if s.required.isSome && isNull (resolvedVal raw k s) then .error (.missingRequired k)
        else
          match s.ftype with
          | some t => do
              let cv ← typeConvert t (resolvedVal raw k s)
              let tail ← convertDictGo raw rest
              .ok ((k, cv) :: tail)
          | none =>
              if isNull (resolvedVal raw k s) then convertDictGo raw rest
              else do
                let tail ← convertDictGo raw rest
                .ok ((k, resolvedVal raw k s) :: tail)
      else convertDictGo raw rest

/-- `DataID.convert_dict` with the `if not keyvals: return curated` shortcut
(source lines 406-408): an empty raw mapping yields an empty curated mapping
without touching the schema (the same shortcut guards `__init__`'s
`if keyval_dict:`). -/
def convertDict (ks : List (String × Option FieldSpec)) (raw : List (String × Value)) :
    Except PyErr (List (String × Value)) :=
  if raw.isEmpty then .ok [] else convertDictGo raw ks

/-- The identifier: the original (pre-fix) id keys kept for pickling
(`_orig_id_keys`), the fixed schema (`_id_keys`) and the curated immutable
field mapping (the dict contents). -/
structure DataID where
  origKeys : List (String × Option RawFieldSpec)
  idKeys : List (String × Option FieldSpec)
  fields : List (String × Value)
  deriving Repr

/-- `DataID.__init__` (source lines 373-387): fix the id keys, then curate the
keyword arguments. -/
def DataID.build (rawKs : List (String × Option RawFieldSpec)) (raw : List (String × Value)) :
    Except PyErr DataID := do
  let fixed ← fixIdKeys rawKs
  let flds ← convertDict fixed raw
  .ok ⟨rawKs, fixed, flds⟩

/-- Value rendering of `DataID.to_dict` (source lines 477-485): an `Enum`
member becomes its name, everything else passes through. -/
def toDictVal : Value → Value
  | .enumV n _ => .str n
  | v => v

/-- `DataID.to_dict`: the fields with enum members rendered as names. -/
def DataID.toDictFields (d : DataID) : List (String × Value) :=
  d.fields.map (fun p => (p.1, toDictVal p.2))

/-- The pickling reduction round trip: `DataID._unpickle(*self.__reduce__()[1])`
rebuilds the identifier from `(self._orig_id_keys, self.to_dict())`
(source lines 429-436). -/
def DataID.unpickle (d : DataID) : Except PyErr DataID :=
  DataID.build d.origKeys d.toDictFields

/-- Python `dict` equality of two identifiers (`DataID` inherits dict
equality): same number of fields and every left field's value `==` the right
dict's value under the same key (left value on the left). -/
def dataIDEqB (a b : DataID) : Bool :=
  (a.fields.length == b.fields.length) &&
  a.fields.all (fun p =>
    match alookup b.fields p.1 with
    | some w => valueEq p.2 w
    | none => false)

mutual

/-- Canonical form of a value with respect to Python `hash`: a `ValueList`
member hashes as its name, a `ModifierTuple` and a `WavelengthRange` hash as
the plain tuple of their components (all three override `__hash__` that way,
source lines 54-56, 112-114, 177-179).  Equal canonical forms have equal
Python hashes; a Python `list` is unhashable and is left as-is. -/
def canonVal : Value → Value
  | .enumV n _ => .str n
  | .wl m c M u => .tup [.num m, .num c, .num M, .str u]
  | .tup l => .tup (canonList l)
  | .modT l => .tup (canonList l)
  | .list l => .list (canonList l)
  | v => v

/-- Canonical form of each element of a sequence. -/
def canonList : List Value → List Value
  | [] => []
  | x :: xs => canonVal x :: canonList xs

end

/-- Stable insertion of a field into a key-sorted list (strict comparison, so
an equal key goes after the existing ones). -/
def insertByKey (p : String × Value) : List (String × Value) → List (String × Value)
  | [] => [p]
  | q :: qs => if strLtB p.1 q.1 then p :: q :: qs else q :: insertByKey p qs

/-- Sort a field list by key (insertion sort; keys of a dict are distinct, so
this is the unique key-ascending arrangement `sorted(self.items())` yields). -/
def sortByKey : List (String × Value) → List (String × Value)
  | [] => []
  | p :: ps => insertByKey p (sortByKey ps)

/-- Model of `DataID.__hash__` (source lines 521-525),
`hash(tuple(sorted(self.items())))`: the key-sorted canonicalised items.  Two
identifiers with equal `dataIDHashItems` have equal Python hashes. -/
def dataIDHashItems (d : DataID) : List (String × Value) :=
  sortByKey (d.fields.map (fun p => (p.1, canonVal p.2)))

/-- Loop of `DataQuery.__eq__` (source lines 592-609) over the query's items:
`common` records whether a shared key was seen; a shared key whose values
differ (other's value on the left of `!=`) fails immediately unless the
query's value is `None`. -/
def queryEqGo (odict : List (String × Value)) :
    List (String × Value) → Bool → Bool
  | [], common => common
  | (k, v) :: rest, common =>
      match alookup odict k with
      | some w => if !(valueEq w v) && !(isNull v) then false else queryEqGo odict rest true
      | none => queryEqGo odict rest common

/-- `DataQuery.__eq__`: equality of a query against another query or an
identifier (anything exposing `_asdict`), as the shared-key loop above. -/
def queryEq (q odict : List (String × Value)) : Bool :=
  queryEqGo odict q false

/-! Best-match ranking: `DataQuery.sort_dataids` (source lines 688-756). -/

/-- `self._dict.get(key, '*')`. -/
def qval (q : List (String × Value)) (k : String) : Value :=
  (alookup q k).getD (.str "*")

/-- `val == '*'` (the query value on the left). -/
def isWildcard (v : Value) : Bool := valueEq v (.str "*")

/-- `if not isinstance(val, list): val = [val]` — only a Python `list` is kept
as a list of alternatives; every other value (tuples included) is wrapped. -/
def normalizeQVal : Value → List Value
  | .list l => l
  | v => [v]

/-- The distance accumulation loop of `sort_dataids` for one candidate over
the union of key names (source lines 721-753).  A wildcard key adds the
candidate value's `.value` ordinal for enums, the value itself for numbers,
the length for tuples (a `WavelengthRange` is a 4-tuple) and 0 otherwise.  A
constrained key missing from the candidate adds `big_distance = 100000` and
stops; a `WavelengthRange` value adds its `distance`; otherwise a value not
among the allowed alternatives sets the distance to `np.inf` and stops, and a
numeric value (enums included) that passed the check adds itself. -/
def distLoop (q : List (String × Value)) (d : DataID) :
    List String → Dist → Except PyErr Dist
  | [], acc => .ok acc
  | k :: ks, acc =>
      let val := qval q k
      if isWildcard val then
        distLoop q d ks (acc.add (match alookup d.fields k with
          | some (.enumV _ o) => .fin (o : Rat)
          | some (.num n) => .fin n
          | some (.wl _ _ _ _) => .fin 4
          | some (.tup l) => .fin (l.length : Rat)
          | some (.modT l) => .fin (l.length : Rat)
          | _ => .fin 0))
      else
        match alookup d.fields k with
        | none => .ok (acc.add (.fin 100000))
        | some dv =>
            match dv with
            | .wl m c M u => do
                let dd ← wlDistance m c M u val
                distLoop q d ks (acc.add dd)
            | _ =>
                if !(pyContains (normalizeQVal val) dv) then .ok .inf
                else
                  distLoop q d ks (acc.add (match dv with
                    | .num n => .fin n
                    | .enumV _ o => .fin (o : Rat)
                    | _ => .fin 0))

/-- Append a key if not already present. -/
def addKey (acc : List String) (k : String) : List String :=
  if k ∈ acc then acc else acc ++ [k]

/-- The union `keys = set(query) ∪ ⋃ set(dataid)` of `sort_dataids`.  Python
iterates this set in an unspecified order; the model fixes first-insertion
order (query keys first, then each candidate's new keys).  The theorems below
do not depend on the iteration order. -/
def allKeys (q : List (String × Value)) (ids : List DataID) : List String :=
  ids.foldl (fun acc d => d.fields.foldl (fun a p => addKey a p.1) acc)
    ((q.map Prod.fst).foldl addKey [])

/-- `zeroSub` is the type-appropriate zero `DataID.__lt__` substitutes for a
field present on only one side (source lines 540-561): `0` for numbers (enum
members are numbers), `''` for strings, `()` for tuples (ranges and modifier
tuples are tuples); anything else raises `NotImplementedError`. -/
def zeroSub : Value → Except PyErr Value
  | .num _ => .ok (.num 0)
  | .enumV _ _ => .ok (.num 0)
  | .str _ => .ok (.str "")
  | .wl _ _ _ _ => .ok (.tup [])
  | .tup _ => .ok (.tup [])
  | .modT _ => .ok (.tup [])
  | _ => .error .notImplGeneralize

/-- The two comparison lists `DataID.__lt__` builds over the left identifier's
schema keys (source lines 531-562). -/
def idLtLists (a b : DataID) :
    List (String × Option FieldSpec) → Except PyErr (List Value × List Value)
  | [] => .ok ([], [])
  | (k, _) :: rest =>
      match alookup a.fields k, alookup b.fields k with
      | none, none => idLtLists a b rest
      | some va, some vb => do
          let (ls, lo) ← idLtLists a b rest
          .ok (va :: ls, vb :: lo)
      | some va, none => do
          let z ← zeroSub va
          let (ls, lo) ← idLtLists a b rest
          .ok (va :: ls, z :: lo)
      | none, some vb => do
          let z ← zeroSub vb
          let (ls, lo) ← idLtLists a b rest
          .ok (z :: ls, vb :: lo)

/-- `DataID.__lt__`: compare the two generalised value tuples. -/
def idLt (a b : DataID) : Except PyErr Bool := do
  let (ls, lo) ← idLtLists a b a.idKeys
  pyLtSeq ls lo

/-- Stable insertion for `sorted(dataids)`: the new element goes before the
first strictly greater one. -/
def insertById (x : DataID) : List DataID → Except PyErr (List DataID)
  | [] => .ok [x]
  | y :: ys => do
      let b ← idLt x y
      if b then .ok (x :: y :: ys)
      else do
        let r ← insertById x ys
        .ok (y :: r)

/-- `sorted(dataids)` under `DataID.__lt__`, modelled as a stable insertion
sort processing the list left to right (Python's Timsort is also stable and
uses only `__lt__`; for well-behaved orders both produce the same list, and
the theorems below do not depend on this arrangement). -/
def pySortIds (ids : List DataID) : Except PyErr (List DataID) :=
  ids.foldlM (fun acc x => insertById x acc) []

/-- The `(distance, dataid)` pairs accumulated by the candidate loop of
`sort_dataids`, in pre-sorted candidate order. -/
def distPairs (q : List (String × Value)) (ks : List String) :
    List DataID → Except PyErr (List (Dist × DataID))
  | [] => .ok []
  | d :: ds => do
      let v ← distLoop q d ks (.fin 0)
      let rest ← distPairs q ks ds
      .ok ((v, d) :: rest)

/-- Stable insertion by distance (non-strict test: the new, originally earlier
pair goes before later pairs of equal distance). -/
def insertPairLe (p : Dist × DataID) : List (Dist × DataID) → List (Dist × DataID)
  | [] => [p]
  | x :: xs => if distLeB p.1 x.1 then p :: x :: xs else x :: insertPairLe p xs

/-- The final `sorted(zip(distances, sorted_dataids))`: a stable ascending
sort of the pairs by distance.  (On equal distances Python additionally
compares the identifiers themselves; since the candidates enter pre-sorted by
that same order, the stable sort yields the same arrangement for consistent
orders, and the theorems below only use sortedness by distance.) -/
def sortPairs : List (Dist × DataID) → List (Dist × DataID)
  | [] => []
  | p :: ps => insertPairLe p (sortPairs ps)

/-- `DataQuery.sort_dataids` (source lines 688-756): pre-sort the candidates,
accumulate each one's distance over the union of keys, sort by distance and
return the candidates with their distances.  Unzipping an empty pair list
raises (`zip(*sorted(zip([], [])))` is a `ValueError`). -/
def sortDataids (q : List (String × Value)) (ids : List DataID) :
    Except PyErr (List DataID × List Dist) := do
  let ks := allKeys q ids
  let pre ← pySortIds ids
  let pairs ← distPairs q ks pre
  match pairs with
  | [] => .error .valueError
  | _ =>
      let sp := sortPairs pairs
      .ok (sp.map Prod.snd, sp.map Prod.fst)

/-! Mutating operations of `DataID`.  Every one of them is bound to
`DataID._immutable` (source lines 527-529 and 564-570), which raises
`TypeError('Cannot change a DataID')` and touches nothing.  Each operation
returns the pair (raised outcome, identifier after the attempt): the second
component models the object the caller still holds once the exception
propagates. -/

/-- `DataID._immutable`: raise, leaving the identifier as it was. -/
def dataIDImmutableRaise (d : DataID) : Except PyErr Unit × DataID :=
  (.error .typeError, d)

/-- `DataID.__setitem__`. -/
def dataIDSetItem (d : DataID) (_ : String) (_ : Value) : Except PyErr Unit × DataID :=
  dataIDImmutableRaise d

/-- `DataID.__delitem__`. -/
def dataIDDelItem (d : DataID) (_ : String) : Except PyErr Unit × DataID :=
  dataIDImmutableRaise d

/-- `DataID.pop`. -/
def dataIDPop (d : DataID) (_ : String) : Except PyErr Unit × DataID :=
  dataIDImmutableRaise d

/-- `DataID.popitem`. -/
def dataIDPopItem (d : DataID) : Except PyErr Unit × DataID :=
  dataIDImmutableRaise d

/-- `DataID.clear`. -/
def dataIDClear (d : DataID) : Except PyErr Unit × DataID :=
  dataIDImmutableRaise d

/-- `DataID.update`. -/
def dataIDUpdate (d : DataID) (_ : List (String × Value)) : Except PyErr Unit × DataID :=
  dataIDImmutableRaise d

/-- `DataID.setdefault`. -/
def dataIDSetDefault (d : DataID) (_ : String) (_ : Value) : Except PyErr Unit × DataID :=
  dataIDImmutableRaise d

/-! Metadata combiner: `combine_metadata` and its helpers
(source lines 261-363). -/

/-- A metadata value.  Every value carries the Python object id (`id(x)`)
used by the combiner's `is` checks: `arr` is an array-like object (exposing
`__array__`; its numeric content is irrelevant to the combiner, which compares
arrays only by identity), `plain` wraps an ordinary value, `dt` a naive
datetime (by its timestamp), `coll` a collection of metadata values. -/
inductive MetaVal where
  | arr : Nat → MetaVal
  | plain : Nat → Value → MetaVal
  | dt : Nat → Rat → MetaVal
  | coll : Nat → List MetaVal → MetaVal
  deriving Repr

/-- The Python object id of a metadata value. -/
def MetaVal.oid : MetaVal → Nat
  | .arr i => i
  | .plain i _ => i
  | .dt i _ => i
  | .coll i _ => i

/-- Python `a is b` on metadata values: identity of object ids. -/
def metaIs (a b : MetaVal) : Bool := a.oid == b.oid

/-- `hasattr(val, "__array__")`. -/
def isArr : MetaVal → Bool
  | .arr _ => true
  | _ => false

/-- `isinstance(val, datetime)`. -/
def isDt : MetaVal → Bool
  | .dt _ _ => true
  | _ => false

mutual

/-- Python `==` between metadata values, used only by the combiner's final
all-equal branch, which the array branches shield from array-like values
(`arr == arr` is modelled by identity; that case is unreachable there). -/
def metaEq : MetaVal → MetaVal → Bool
  | .plain _ v, .plain _ w => valueEq v w
  | .dt _ t, .dt _ s => ratEqB t s
  | .coll _ l, .coll _ m => metaEqL l m
  | .arr i, .arr j => i == j
  | _, _ => false

/-- Elementwise Python `==` of metadata collections. -/
def metaEqL : List MetaVal → List MetaVal → Bool
  | [], [] => true
  | x :: xs, y :: ys => metaEq x y && metaEqL xs ys
  | _, _ => false

end

/-- `_share_metadata_key_array` (source lines 349-354): every later value must
be the *same object* as the first. -/
def shareArray : List MetaVal → Bool
  | [] => true
  | v0 :: rest => rest.all (fun v => metaIs v v0)

/-- Truncating elementwise identity check of `zip(val, values[0])`. -/
def zipIs : List MetaVal → List MetaVal → Bool
  | _, [] => true
  | [], _ => true
  | a :: as_, b :: bs => metaIs a b && zipIs as_ bs

/-- Loop of `_share_metadata_key_list_arrays` over `values[1:]`: a later value
that is not iterable makes `zip` raise. -/
def shareListArraysGo (refl : List MetaVal) : List MetaVal → Except PyErr Bool
  | [] => .ok true
  | v :: vs =>
      match v with
      | .coll _ l => if zipIs l refl then shareListArraysGo refl vs else .ok false
      | _ => .error .typeError

/-- `_share_metadata_key_list_arrays` (source lines 357-363). -/
def shareListArrays : List MetaVal → Except PyErr Bool
  | [] => .ok true
  | ref :: rest =>
      match rest with
      | [] => .ok true
      | _ =>
          match ref with
          | .coll _ refl => shareListArraysGo refl rest
          | _ => .error .typeError

/-- Character-list test: does the second list start with the first. -/
def chStarts : List Char → List Char → Bool
  | [], _ => true
  | _ :: _, [] => false
  | a :: as_, b :: bs => a == b && chStarts as_ bs

/-- Character-list substring test. -/
def chHasSub (needle : List Char) : List Char → Bool
  | [] => needle.isEmpty
  | h :: t => chStarts needle (h :: t) || chHasSub needle t

/-- Python `needle in hay` for strings (substring containment). -/
def strHasSub (needle hay : String) : Bool := chHasSub needle.data hay.data

/-- `_share_metadata_key` (source lines 324-346): array identity first, then
lists of arrays, then datetime averaging of `time` keys, then plain equality
against the first value. -/
def shareMetadataKey (k : String) (values : List MetaVal) (avgTimes : Bool) :
    Except PyErr Bool :=
  let anyArrays := values.any isArr
  let listOfArrays := values.any (fun v =>
    match v with
    | .coll _ l => !l.isEmpty && l.all isArr
    | _ => false)
  if anyArrays then .ok (shareArray values)
  else if listOfArrays then shareListArrays values
  else
    match values with
    | [] => .error .valueError
    | v0 :: rest =>
        if strHasSub "time" k && isDt v0 && avgTimes then .ok true
        else .ok (rest.all (fun v => metaEq v v0))

/-- Division of a rational by a natural number, kernel-computable. -/
def ratDivNat (a : Rat) (n : Nat) : Rat := mkRat a.num (a.den * n)

/-- `average_datetimes` (source lines 243-258): mean of the timestamps;
`datetime.timestamp` on a non-datetime raises.  The freshly built datetime
gets object id 0 (its identity is never inspected by the combiner). -/
def averageDt (values : List MetaVal) : Except PyErr MetaVal := do
  let ts ← values.mapM (fun v =>
    match v with
    | .dt _ t => Except.ok t
    | _ => Except.error PyErr.typeError)
  .ok (.dt 0 (ratDivNat (ts.foldl ratAdd 0) ts.length))

/-- An argument of `combine_metadata`: a dict, an object with an `attrs`
dict, or anything else (which the collection loop skips). -/
inductive MetaInput where
  | dictIn : List (String × MetaVal) → MetaInput
  | attrsIn : List (String × MetaVal) → MetaInput
  | otherIn : MetaInput

/-- The metadata dicts `combine_metadata` collects from its arguments. -/
def extractDicts : List MetaInput → List (List (String × MetaVal))
  | [] => []
  | .dictIn d :: rest => d :: extractDicts rest
  | .attrsIn d :: rest => d :: extractDicts rest
  | .otherIn :: rest => extractDicts rest

/-- The `shared_keys` set: `None` when no dict was collected, otherwise the
keys of the first dict that occur in every other dict.  Python iterates the
set in unspecified order; the model fixes first-dict insertion order (the
theorems below only use membership). -/
def sharedKeysOf : List (List (String × MetaVal)) → Option (List String)
  | [] => none
  | d0 :: rest =>
      some ((d0.foldl (fun a p => addKey a p.1) []).filter
        (fun k => rest.all (fun d => (alookup d k).isSome)))

/-- Combination of a single shared key (the body of the `for k in shared_keys`
loop of `combine_metadata`, source lines 300-306): the key is kept iff
`_share_metadata_key` accepts it; a kept `time` key of datetimes is averaged,
any other kept key stores the first dict's value. -/
def combineKey (ds : List (List (String × MetaVal))) (avg : Bool) (k : String) :
    Except PyErr (Option (String × MetaVal)) := do
  let values := ds.filterMap (fun d => alookup d k)
  let share ← shareMetadataKey k values avg
  if share then
    match values with
    | [] => .error .valueError
    | v0 :: _ =>
        if strHasSub "time" k && isDt v0 && avg then do
          let m ← averageDt values
          .ok (some (k, m))
        else .ok (some (k, v0))
  else .ok none

/-- The `for k in shared_keys` loop of `combine_metadata`: combine each key
in turn, collecting the kept entries in key order. -/
def combineKeys (ds : List (List (String × MetaVal))) (avg : Bool) :
    List String → Except PyErr (List (String × MetaVal))
  | [] => .ok []
  | k :: ks => do
      let r ← combineKey ds avg k
      let rest ← combineKeys ds avg ks
      match r with
      | some pair => .ok (pair :: rest)
      | none => .ok rest

/-- `combine_metadata` (source lines 261-308).  With no dict-like argument at
all, `shared_keys` is still `None` when the final loop `for k in shared_keys`
runs, and iterating `None` raises `TypeError`. -/
def combineMetadata (inputs : List MetaInput) (avg : Bool) :
    Except PyErr (List (String × MetaVal)) := do
  let ds := extractDicts inputs
  match sharedKeysOf ds with
  | none => .error .typeError
  | some ks => combineKeys ds avg ks

/-- Does a `combine_metadata` argument contribute a metadata dict. -/
def isDictLike : MetaInput → Bool
  | .dictIn _ => true
  | .attrsIn _ => true
  | .otherIn => false

/-! Small facts about the comparison primitives. -/

theorem ratLtB_self (a : Rat) : ratLtB a a = false := by
  cases hb : ratLtB a a
  · rfl
  · exact absurd ((ratLtB_iff a a).mp hb) (lt_irrefl a)

theorem charListLt_self : (l : List Char) → charListLt l l = false
  | [] => rfl
  | c :: cs => by rw [charListLt, if_pos rfl] ; exact charListLt_self cs

theorem strLtB_self (s : String) : strLtB s s = false := charListLt_self s.data

/-! Claim C3: immutability of a constructed identifier. -/

/-- C3: every mutating operation of an `Identifier` (item assignment, item
deletion, `pop`, `popitem`, `clear`, `update`, `setdefault`) fails with an
error, and after any such failed attempt the identifier — hence its hash
items and its set of fields — is unchanged. -/
theorem dataID_mutation_always_fails (d : DataID) (k k2 k3 k4 : String) (v v2 : Value)
    (other : List (String × Value)) :
    ((dataIDSetItem d k v).1 = .error .typeError ∧ (dataIDSetItem d k v).2 = d)
    ∧ ((dataIDDelItem d k2).1 = .error .typeError ∧ (dataIDDelItem d k2).2 = d)
    ∧ ((dataIDPop d k3).1 = .error .typeError ∧ (dataIDPop d k3).2 = d)
    ∧ ((dataIDPopItem d).1 = .error .typeError ∧ (dataIDPopItem d).2 = d)
    ∧ ((dataIDClear d).1 = .error .typeError ∧ (dataIDClear d).2 = d)
    ∧ ((dataIDUpdate d other).1 = .error .typeError ∧ (dataIDUpdate d other).2 = d)
    ∧ ((dataIDSetDefault d k4 v2).1 = .error .typeError ∧ (dataIDSetDefault d k4 v2).2 = d)
    ∧ dataIDHashItems (dataIDSetItem d k v).2 = dataIDHashItems d
    ∧ (dataIDSetItem d k v).2.fields.map Prod.fst = d.fields.map Prod.fst
    ∧ dataIDHashItems (dataIDUpdate d other).2 = dataIDHashItems d
    ∧ (dataIDUpdate d other).2.fields.map Prod.fst = d.fields.map Prod.fst :=
  ⟨⟨rfl, rfl⟩, ⟨rfl, rfl⟩, ⟨rfl, rfl⟩, ⟨rfl, rfl⟩, ⟨rfl, rfl⟩, ⟨rfl, rfl⟩, ⟨rfl, rfl⟩,
    rfl, rfl, rfl, rfl⟩

/-! Claim C10: `combine_metadata` with no mapping-like argument raises. -/

theorem extractDicts_eq_nil (inputs : List MetaInput)
    (h : inputs.all (fun i => !isDictLike i) = true) : extractDicts inputs = [] := by
  induction inputs with
  | nil => rfl
  | cons i rest ih =>
      rw [List.all_cons, Bool.and_eq_true] at h
      cases i with
      | dictIn d => exact absurd h.1 (by simp [isDictLike])
      | attrsIn d => exact absurd h.1 (by simp [isDictLike])
      | otherIn => rw [extractDicts] ; exact ih h.2

/-- C10: calling the metadata combiner with no arguments, or only with
arguments that are neither mappings nor objects exposing an attribute dict,
raises an error (the shared-key set is never initialised and is then
iterated) rather than returning an empty merged mapping. -/
theorem combineMetadata_no_mapping_raises (inputs : List MetaInput) (avg : Bool)
    (h : inputs.all (fun i => !isDictLike i) = true) :
    combineMetadata inputs avg = .error .typeError := by
  rw [combineMetadata, extractDicts_eq_nil inputs h]
  rfl

/-- Witness for C10: the empty call and a call with one non-mapping argument
both raise. -/
theorem combineMetadata_no_mapping_raises_witness :
    combineMetadata [] true = .error .typeError
    ∧ combineMetadata [.otherIn] false = .error .typeError :=
  ⟨combineMetadata_no_mapping_raises [] true rfl,
    combineMetadata_no_mapping_raises [.otherIn] false rfl⟩

/-! Claim C9: `WavelengthRange` ordering against `None` and lexicographic
comparison. -/

/-- The claim's reading of the `None` fallback: `w < None` always holds. -/
def claimC9LtNone : Prop :=
  ∀ (m c M : Rat) (u : String), pyLt (.wl m c M u) .null = .ok true

/-- Counterexample to C9 as stated: `WavelengthRange(1, 2, 3) < None` is
`False` in the source (`__lt__` returns `False` for `None`, line 102-103),
and comparing a range with a bare number raises `TypeError` rather than
comparing lexicographically. -/
theorem wavelength_lt_none_counterexample :
    ¬ claimC9LtNone ∧ pyLt (.wl 1 2 3 "µm") (.num 1) = .error .typeError := by
  constructor
  · intro h
    exact Bool.noConfusion (Except.ok.inj (h 1 2 3 "µm"))
  · rfl

/-- Lexicographic strict order on `(min, central, max, unit)`, following the
spec's words for the ordering of two wavelength ranges. -/
def wlLexLtB (m c M : Rat) (u : String) (m' c' M' : Rat) (u' : String) : Bool :=
  ratLtB m m' ||
    (ratEqB m m' && (ratLtB c c' ||
      (ratEqB c c' && (ratLtB M M' ||
        (ratEqB M M' && strLtB u u')))))

theorem ratEqB_swap (a b : Rat) : ratEqB a b = ratEqB b a := by
  simp [ratEqB, eq_comm]

theorem strBeq_swap (u u' : String) : (u == u') = (u' == u) := by
  rcases eq_or_ne u u' with h | h
  · subst h ; rfl
  · rw [beq_eq_false_iff_ne.mpr h, beq_eq_false_iff_ne.mpr h.symm]

/-- C9 (amended): `w < None` never holds (it is `False`), `w > None` always
holds, and against another `WavelengthRange` both orderings are the
lexicographic comparison of `(min, central, max, unit)`. -/
theorem wavelength_ordering_amended :
    (∀ (m c M : Rat) (u : String), pyLt (.wl m c M u) .null = .ok false)
    ∧ (∀ (m c M : Rat) (u : String), wlGtB m c M u .null = .ok true)
    ∧ (∀ (m c M : Rat) (u : String) (m' c' M' : Rat) (u' : String),
        pyLt (.wl m c M u) (.wl m' c' M' u') = .ok (wlLexLtB m c M u m' c' M' u'))
    ∧ (∀ (m c M : Rat) (u : String) (m' c' M' : Rat) (u' : String),
        wlGtB m c M u (.wl m' c' M' u') = .ok (wlLexLtB m' c' M' u' m c M u)) := by
  refine ⟨fun m c M u => rfl, fun m c M u => rfl, ?_, ?_⟩
  · intro m c M u m' c' M' u'
    rw [pyLt, wlLexLtB]
    cases h1 : ratEqB m m' with
    | false => simp [h1]
    | true =>
        have hm : m = m' := (ratEqB_iff m m').mp h1
        subst hm
        cases h2 : ratEqB c c' with
        | false => simp [h1, h2, ratLtB_self]
        | true =>
            have hc : c = c' := (ratEqB_iff c c').mp h2
            subst hc
            cases h3 : ratEqB M M' with
            | false => simp [h1, h2, h3, ratLtB_self]
            | true =>
                have hM : M = M' := (ratEqB_iff M M').mp h3
                subst hM
                cases h4 : (u == u') with
                | false => simp [h1, h2, h3, h4, ratLtB_self]
                | true =>
                    have hu : u = u' := by simpa using h4
                    subst hu
                    simp [h1, h2, h3, ratLtB_self, strLtB_self]
  · intro m c M u m' c' M' u'
    rw [wlGtB, wlLexLtB]
    cases h1 : ratEqB m m' with
    | false => simp [h1, ratEqB_swap m' m, h1]
    | true =>
        have hm : m = m' := (ratEqB_iff m m').mp h1
        subst hm
        cases h2 : ratEqB c c' with
        | false => simp [h1, h2, ratEqB_swap c' c, ratLtB_self]
        | true =>
            have hc : c = c' := (ratEqB_iff c c').mp h2
            subst hc
            cases h3 : ratEqB M M' with
            | false => simp [h1, h2, h3, ratEqB_swap M' M, ratLtB_self]
            | true =>
                have hM : M = M' := (ratEqB_iff M M').mp h3
                subst hM
                cases h4 : (u == u') with
                | false => simp [h1, h2, h3, h4, strBeq_swap u' u, ratLtB_self]
                | true =>
                    have hu : u = u' := by simpa using h4
                    subst hu
                    simp [h1, h2, h3, ratLtB_self, strLtB_self]

/-! Claim C7: wavelength containment equality and `distance`. -/

theorem wlDistance_of_ne (m c M : Rat) (u : String) (v : Value)
    (h : valueEq (.wl m c M u) v = false) : wlDistance m c M u v = .ok .inf := by
  rw [wlDistance.eq_def, h]
  simp

/-- C7: a `WavelengthRange` equals a bare number exactly when the number lies
between its min and max (so `WavelengthRange(1,2,3) == 2.5` holds and
`== 0.5` does not), and `distance` is `+infinity` whenever the range is not
equal to the value, else the absolute difference of the central values (the
number itself, the middle component of a triple, or the other range's
central). -/
theorem wavelength_containment_and_distance :
    (∀ (m c M : Rat) (u : String) (n : Rat),
       valueEq (.wl m c M u) (.num n) = (ratLeB m n && ratLeB n M))
    ∧ valueEq (.wl 1 2 3 "µm") (.num (mkRat 5 2)) = true
    ∧ valueEq (.wl 1 2 3 "µm") (.num (mkRat 1 2)) = false
    ∧ (∀ (m c M : Rat) (u : String) (v : Value),
        valueEq (.wl m c M u) v = false → wlDistance m c M u v = .ok .inf)
    ∧ (∀ (m c M : Rat) (u : String) (n : Rat),
        valueEq (.wl m c M u) (.num n) = true →
        wlDistance m c M u (.num n) = .ok (.fin (ratAbs (ratSub n c))))
    ∧ (∀ (m c M : Rat) (u : String) (m' c' M' : Rat) (u' : String),
        valueEq (.wl m c M u) (.wl m' c' M' u') = true →
        wlDistance m c M u (.wl m' c' M' u') = .ok (.fin (ratAbs (ratSub c' c))))
    ∧ (∀ (m c M : Rat) (u : String) (a : Value) (b : Rat) (d : Value),
        valueEq (.wl m c M u) (.tup [a, .num b, d]) = true →
        wlDistance m c M u (.tup [a, .num b, d]) = .ok (.fin (ratAbs (ratSub b c)))) := by
  refine ⟨fun m c M u n => valueEq_wl_num m c M u n,
    by rw [valueEq_wl_num] ; rfl, by rw [valueEq_wl_num] ; rfl,
    wlDistance_of_ne, ?_, ?_, ?_⟩
  · intro m c M u n h
    rw [wlDistance, h]
    rfl
  · intro m c M u m' c' M' u' h
    rw [wlDistance, h]
    rfl
  · intro m c M u a b d h
    rw [wlDistance, h]
    rfl

/-- Witness for C7's conditional clauses: a value outside the range is at
infinite distance, a contained number is at `|2.5 - 2| = 0.5`, and both
example equalities of the spec evaluate as stated. -/
theorem wavelength_containment_and_distance_witness :
    wlDistance 1 2 3 "µm" (.str "x") = .ok .inf
    ∧ wlDistance 1 2 3 "µm" (.num (mkRat 1 2)) = .ok .inf
    ∧ wlDistance 1 2 3 "µm" (.num (mkRat 5 2)) = .ok (.fin (ratAbs (ratSub (mkRat 5 2) 2))) :=
  ⟨wavelength_containment_and_distance.2.2.2.1 1 2 3 "µm" (.str "x") (by simp),
    wavelength_containment_and_distance.2.2.2.1 1 2 3 "µm" (.num (mkRat 1 2))
      (by rw [valueEq_wl_num] ; rfl),
    wavelength_containment_and_distance.2.2.2.2.1 1 2 3 "µm" (mkRat 5 2)
      (by rw [valueEq_wl_num] ; rfl)⟩

/-! Claim C6: the wildcard-field contribution of the ranking loop. -/

/-- Python tuple length of a value, when the value is a `tuple` (a
`WavelengthRange` is a 4-tuple, a `ModifierTuple` a tuple of its elements; a
Python `list` is not a tuple). -/
def pyTupleLen : Value → Option Nat
  | .tup l => some l.length
  | .modT l => some l.length
  | .wl _ _ _ _ => some 4
  | _ => none

/-- The wildcard contribution as the spec words it: the enum ordinal for a
closed-enumeration value, the value itself for a number, the length for a
tuple, 0 otherwise (in particular for a missing field). -/
def specWildcardContrib : Option Value → Dist
  | some (.enumV _ o) => .fin (o : Rat)
  | some (.num n) => .fin n
  | some w =>
      match pyTupleLen w with
      | some n => .fin (n : Rat)
      | none => .fin 0
  | none => .fin 0

/-- C6: when the query leaves a field wildcard/unspecified, processing that
field adds exactly the spec's contribution (enum ordinal / numeric value /
tuple length / 0) to the candidate's accumulated distance and continues with
the remaining fields. -/
theorem distLoop_wildcard_step (q : List (String × Value)) (d : DataID) (k : String)
    (ks : List String) (acc : Dist) (h : isWildcard (qval q k) = true) :
    distLoop q d (k :: ks) acc =
      distLoop q d ks (acc.add (specWildcardContrib (alookup d.fields k))) := by
  conv_lhs => rw [distLoop]
  simp only [h, if_pos]
  congr 1
  cases hv : alookup d.fields k with
  | none => simp [specWildcardContrib]
  | some w => cases w <;> simp [specWildcardContrib, pyTupleLen]

/-- Witness for C6: with an empty query every key is wildcard; an enum-valued
field contributes its ordinal. -/
theorem distLoop_wildcard_step_witness :
    distLoop [] ⟨[], [], [("calibration", .enumV "counts" 4)]⟩ ["calibration"] (.fin 0) =
      distLoop [] ⟨[], [], [("calibration", .enumV "counts" 4)]⟩ []
        ((Dist.fin 0).add (specWildcardContrib (some (.enumV "counts" 4)))) := by
  have h := distLoop_wildcard_step [] ⟨[], [], [("calibration", .enumV "counts" 4)]⟩
    "calibration" [] (.fin 0) (by simp [isWildcard, qval, alookup, strEqVal])
  simpa [alookup] using h

/-! Claim C5: equality of a query with a query or an identifier. -/

/-- The per-field compatibility relation claim C5 asserts: a `None` query
value skips the check, a wildcard query value matches anything, otherwise the
values must be equal. -/
def specCompatible (qv ov : Value) : Bool :=
  if isNull qv then true
  else if isWildcard qv then true
  else valueEq ov qv

/-- Claim C5 at a given query and other mapping: equality holds iff the two
share at least one field and every shared field's values are compatible. -/
def claimC5At (q o : List (String × Value)) : Prop :=
  queryEq q o = true ↔
    (q.any (fun p => (alookup o p.1).isSome) = true ∧
      ∀ p ∈ q, ∀ w, alookup o p.1 = some w → specCompatible p.2 w = true)

/-- Counterexample to C5 as stated: a query constraining `a` to the wildcard
`'*'` is *not* equal to an identifier with `a = 5` — `DataQuery.__eq__` gives
the wildcard no special treatment (`odict[key] != val and val is not None`,
source lines 604-608), so a wildcard only matches another wildcard. -/
theorem queryEq_wildcard_counterexample :
    ¬ claimC5At [("a", .str "*")] [("a", .num 5)] := by
  intro h
  have hrhs : ([(("a" : String), Value.str "*")].any
      (fun p => (alookup [(("a" : String), Value.num 5)] p.1).isSome) = true ∧
      ∀ p ∈ [(("a" : String), Value.str "*")], ∀ w,
        alookup [(("a" : String), Value.num 5)] p.1 = some w →
        specCompatible p.2 w = true) := by
    constructor
    · simp [alookup]
    · intro p hp w hw
      rw [List.mem_singleton] at hp
      subst hp
      simp [alookup] at hw
      subst hw
      simp [specCompatible, isNull, isWildcard, strEqVal]
  have hlhs := h.mpr hrhs
  rw [queryEq, queryEqGo] at hlhs
  simp [alookup, numEqVal, isNull, queryEqGo] at hlhs

/-- C5 (amended): `q == o` holds iff they share at least one field and for
every field of `q` present in `o`, the other side's value equals the query's
value (with the other side's value on the left of the comparison) or the
query's value is `None` — a wildcard query value is compared literally like
any other value. -/
theorem queryEq_amended (q o : List (String × Value)) :
    queryEq q o = true ↔
      (q.any (fun p => (alookup o p.1).isSome) = true ∧
        ∀ p ∈ q, ∀ w, alookup o p.1 = some w → (valueEq w p.2 || isNull p.2) = true) := by
  have main : ∀ (qs : List (String × Value)) (common : Bool),
      queryEqGo o qs common = true ↔
        ((common || qs.any (fun p => (alookup o p.1).isSome)) = true ∧
          ∀ p ∈ qs, ∀ w, alookup o p.1 = some w → (valueEq w p.2 || isNull p.2) = true) := by
    intro qs
    induction qs with
    | nil => intro common ; simp [queryEqGo]
    | cons p rest ih =>
        intro common
        obtain ⟨k, v⟩ := p
        rw [queryEqGo]
        cases ho : alookup o k with
        | none =>
            rw [ih common]
            constructor
            · rintro ⟨h1, h2⟩
              refine ⟨by simpa [ho] using h1, ?_⟩
              intro p hp w hw
              rcases List.mem_cons.mp hp with hp | hp
              · subst hp
                rw [ho] at hw
                exact absurd hw (by simp)
              · exact h2 p hp w hw
            · rintro ⟨h1, h2⟩
              refine ⟨by simpa [ho] using h1, ?_⟩
              intro p hp w hw
              exact h2 p (List.mem_cons_of_mem _ hp) w hw
        | some w0 =>
            cases hc : (!(valueEq w0 v) && !(isNull v)) with
            | true =>
                simp only [hc, if_pos]
                constructor
                · intro hfalse ; exact absurd hfalse (by simp)
                · rintro ⟨_, h2⟩
                  have := h2 (k, v) (List.mem_cons_self _ _) w0 ho
                  rw [Bool.and_eq_true, Bool.not_eq_true', Bool.not_eq_true'] at hc
                  rw [hc.1, hc.2] at this
                  exact absurd this (by simp)
            | false =>
                simp only [hc, if_neg, Bool.false_eq_true, not_false_iff]
                rw [ih true]
                constructor
                · rintro ⟨_, h2⟩
                  refine ⟨by simp [ho], ?_⟩
                  intro p hp w hw
                  rcases List.mem_cons.mp hp with hp | hp
                  · subst hp
                    rw [ho] at hw
                    have hww : w = w0 := by
                      have := hw.symm
                      simpa using this
                    subst hww
                    rcases Bool.and_eq_false_iff.mp hc with hcc | hcc
                    · have hv : valueEq w v = true := by simpa using hcc
                      simp [hv]
                    · have hv : isNull v = true := by simpa using hcc
                      simp [hv]
                  · exact h2 p hp w hw
                · rintro ⟨_, h2⟩
                  refine ⟨by simp, ?_⟩
                  intro p hp w hw
                  exact h2 p (List.mem_cons_of_mem _ hp) w hw
  rw [queryEq, main q false]
  simp

/-- Witness for C5 (amended): a query sharing the field `a = 1` with an
identifier is equal to it, and the right-hand characterisation holds there. -/
theorem queryEq_amended_witness :
    ([(("a" : String), Value.num 1)].any
        (fun p => (alookup [(("a" : String), Value.num 1)] p.1).isSome) = true ∧
      ∀ p ∈ [(("a" : String), Value.num 1)], ∀ w,
        alookup [(("a" : String), Value.num 1)] p.1 = some w →
        (valueEq w p.2 || isNull p.2) = true) :=
  (queryEq_amended [("a", .num 1)] [("a", .num 1)]).mp
    (by rw [queryEq, queryEqGo] ; simp [alookup, numEqVal, ratEqB, queryEqGo])

/-! Inversion helpers for the `Except` monad. -/

theorem exceptBind_ok {α β : Type} {x : Except PyErr α} {f : α → Except PyErr β} {b : β}
    (h : (x >>= f) = .ok b) : ∃ a, x = .ok a ∧ f a = .ok b := by
  cases x with
  | error e => simp [Bind.bind, Except.bind] at h
  | ok a => exact ⟨a, rfl, by simpa [Bind.bind, Except.bind] using h⟩

theorem exceptBind_err {α β : Type} {x : Except PyErr α} {f : α → Except PyErr β} {e : PyErr}
    (h : (x >>= f) = .error e) : x = .error e ∨ ∃ a, x = .ok a ∧ f a = .error e := by
  cases x with
  | error e' =>
      left
      have : e' = e := by simpa [Bind.bind, Except.bind] using h
      rw [this]
  | ok a =>
      right
      exact ⟨a, rfl, by simpa [Bind.bind, Except.bind] using h⟩

theorem alookup_eq_none {α : Type} :
    ∀ (l : List (String × α)) (k : String), k ∉ l.map Prod.fst → alookup l k = none := by
  intro l
  induction l with
  | nil => intro k _ ; rfl
  | cons p rest ih =>
      intro k hk
      rw [List.map_cons, List.mem_cons] at hk
      push_neg at hk
      rw [alookup, if_neg (by simpa using (Ne.symm hk.1))]
      exact ih k hk.2

theorem mem_of_alookup_isSome {α : Type} (l : List (String × α)) (k : String)
    (h : (alookup l k).isSome = true) : k ∈ l.map Prod.fst := by
  by_contra hn
  rw [alookup_eq_none l k hn] at h
  exact absurd h (by simp)

/-! Claim C2: identifier construction — required fields and field inclusion. -/

/-- Claim C2's failure clause at a schema and raw mapping: construction fails
with `MissingRequiredField` exactly when some schema field marked required
resolves to no value (the raw mapping does not supply it — or supplies only
`None` — and it has no non-null default). -/
def claimC2FailIff (S : List (String × Option RawFieldSpec)) (R : List (String × Value)) :
    Prop :=
  (∃ k, DataID.build S R = .error (.missingRequired k)) ↔
    (∃ p ∈ S, ∃ s, p.2 = some s ∧ s.required = some true ∧
      (alookup R p.1 = none ∨ alookup R p.1 = some .null) ∧ isNull s.defaultVal = true)

/-- Counterexample to C2 as stated: with schema `{name: required}` and the
*empty* raw mapping, construction skips curation entirely (`if keyval_dict:`
in `__init__` and `if not keyvals:` in `convert_dict`) and yields an empty
identifier instead of raising `MissingRequiredField`. -/
theorem build_required_empty_counterexample :
    ¬ claimC2FailIff [("name", some ⟨some true, .null, none, none, none⟩)] [] := by
  intro h
  obtain ⟨k, hk⟩ := h.mpr ⟨("name", some ⟨some true, .null, none, none, none⟩),
    List.mem_singleton.mpr rfl, ⟨some true, .null, none, none, none⟩, rfl, rfl, Or.inl rfl, rfl⟩
  rw [show DataID.build [("name", some ⟨some true, .null, none, none, none⟩)] [] =
      .ok ⟨[("name", some ⟨some true, .null, none, none, none⟩)],
           [("name", some ⟨some true, .null, none, none⟩)], []⟩ from rfl] at hk
  exact Except.noConfusion hk

theorem enumConvert_not_missing (names : List String) (v : Value) (k : String) :
    enumConvert names v ≠ .error (.missingRequired k) := by
  intro h
  cases v <;> simp only [enumConvert] at h <;> (try split at h) <;> simp_all

theorem wlConvert_not_missing (v : Value) (k : String) :
    wlConvert v ≠ .error (.missingRequired k) := by
  intro h
  cases v <;> simp only [wlConvert] at h <;> (try split at h) <;> simp_all

theorem modConvert_not_missing (v : Value) (k : String) :
    modConvert v ≠ .error (.missingRequired k) := by
  intro h
  cases v <;> simp only [modConvert] at h <;> simp_all

theorem typeConvert_not_missing (t : FType) (v : Value) (k : String) :
    typeConvert t v ≠ .error (.missingRequired k) := by
  cases t with
  | enumT names => exact enumConvert_not_missing names v k
  | wavelengthT => exact wlConvert_not_missing v k
  | modifierT => exact modConvert_not_missing v k

theorem fixIdKeys_keys :
    ∀ (S : List (String × Option RawFieldSpec)) (F : List (String × Option FieldSpec)),
      fixIdKeys S = .ok F → F.map Prod.fst = S.map Prod.fst := by
  intro S
  induction S with
  | nil =>
      intro F h
      rw [fixIdKeys] at h
      rw [← Except.ok.inj h]
      rfl
  | cons p rest ih =>
      intro F h
      obtain ⟨k, e⟩ := p
      rw [fixIdKeys] at h
      obtain ⟨fe, _, h2⟩ := exceptBind_ok h
      obtain ⟨frest, hfr, h3⟩ := exceptBind_ok h2
      rw [← Except.ok.inj h3, List.map_cons, List.map_cons, ih frest hfr]

/-- The field-inclusion condition of the amended C2 (for a non-empty raw
mapping): a null schema entry includes the field iff the raw mapping holds a
non-null value for it; a non-null entry includes the field iff it is
triggered and either declares a type or resolves to a non-null value. -/
def inclusionTail (R : List (String × Value)) (p : String × Option FieldSpec) : Prop :=
  match p.2 with
  | none => ∃ v, alookup R p.1 = some v ∧ isNull v = false
  | some s => triggerB R p.1 s = true ∧
      (s.ftype.isSome = true ∨ isNull (resolvedVal R p.1 s) = false)

theorem convertDictGo_missing (R : List (String × Value)) :
    ∀ (ks : List (String × Option FieldSpec)) (k : String),
      convertDictGo R ks = .error (.missingRequired k) →
      ∃ p ∈ ks, p.1 = k ∧ ∃ s, p.2 = some s ∧ s.required.isSome = true ∧
        triggerB R k s = true ∧ isNull (resolvedVal R k s) = true := by
  intro ks
  induction ks with
  | nil => intro k h ; simp [convertDictGo] at h
  | cons p rest ih =>
      intro k h
      obtain ⟨k0, e⟩ := p
      have tailCase : convertDictGo R rest = .error (.missingRequired k) →
          ∃ p ∈ (k0, e) :: rest, p.1 = k ∧ ∃ s, p.2 = some s ∧ s.required.isSome = true ∧
            triggerB R k s = true ∧ isNull (resolvedVal R k s) = true := by
        intro htail
        obtain ⟨p', hp', rest'⟩ := ih k htail
        exact ⟨p', List.mem_cons_of_mem _ hp', rest'⟩
      cases e with
      | none =>
          rw [convertDictGo] at h
          cases hlo : alookup R k0 with
          | some v =>
              simp only [hlo] at h
              by_cases hn : isNull v = true
              · rw [if_pos hn] at h
                exact tailCase h
              · rw [if_neg hn] at h
                rcases exceptBind_err h with h' | ⟨a, _, hfa⟩
                · exact tailCase h'
                · exact absurd hfa (by simp)
          | none =>
              simp only [hlo] at h
              exact tailCase h
      | some s =>
          rw [convertDictGo] at h
          by_cases htr : triggerB R k0 s = true
          · rw [if_pos htr] at h
            by_cases hreq : (s.required.isSome && isNull (resolvedVal R k0 s)) = true
            · rw [if_pos hreq] at h
              have hk0 : k0 = k := by
                have := Except.error.inj h
                exact PyErr.missingRequired.inj this
              subst hk0
              rw [Bool.and_eq_true] at hreq
              exact ⟨(k0, some s), List.mem_cons_self _ _, rfl, s, rfl, hreq.1, htr, hreq.2⟩
            · rw [if_neg hreq] at h
              cases hft : s.ftype with
              | some t =>
                  simp only [hft] at h
                  rcases exceptBind_err h with h' | ⟨a, _, hfa⟩
                  · exact absurd h' (typeConvert_not_missing t _ k)
                  · rcases exceptBind_err hfa with h'' | ⟨a', _, hfa'⟩
                    · exact tailCase h''
                    · exact absurd hfa' (by simp)
              | none =>
                  simp only [hft] at h
                  by_cases hn : isNull (resolvedVal R k0 s) = true
                  · rw [if_pos hn] at h
                    exact tailCase h
                  · rw [if_neg hn] at h
                    rcases exceptBind_err h with h' | ⟨a, _, hfa⟩
                    · exact tailCase h'
                    · exact absurd hfa (by simp)
          · rw [if_neg htr] at h
            exact tailCase h

theorem convertDictGo_ok_required (R : List (String × Value)) :
    ∀ (ks : List (String × Option FieldSpec)) (out : List (String × Value)),
      convertDictGo R ks = .ok out →
      ∀ p ∈ ks, ∀ s, p.2 = some s → s.required.isSome = true → triggerB R p.1 s = true →
        isNull (resolvedVal R p.1 s) = false := by
  intro ks
  induction ks with
  | nil => intro out _ p hp ; simp at hp
  | cons q rest ih =>
      intro out h p hp s hs hreq htr
      obtain ⟨k0, e⟩ := q
      rcases List.mem_cons.mp hp with hp | hp
      · subst hp
        simp only at hs
        subst hs
        rw [convertDictGo, if_pos htr] at h
        by_cases hn : isNull (resolvedVal R k0 s) = true
        · rw [if_pos (by rw [hreq, hn] ; rfl)] at h
          exact Except.noConfusion h
        · simpa using hn
      · have htail : ∃ out', convertDictGo R rest = .ok out' := by
          cases e with
          | none =>
              rw [convertDictGo] at h
              cases hlo : alookup R k0 with
              | some v =>
                  simp only [hlo] at h
                  by_cases hn : isNull v = true
                  · rw [if_pos hn] at h ; exact ⟨out, h⟩
                  · rw [if_neg hn] at h
                    obtain ⟨a, ha, _⟩ := exceptBind_ok h
                    exact ⟨a, ha⟩
              | none =>
                  simp only [hlo] at h ; exact ⟨out, h⟩
          | some s0 =>
              rw [convertDictGo] at h
              by_cases htr0 : triggerB R k0 s0 = true
              · rw [if_pos htr0] at h
                by_cases hreq0 : (s0.required.isSome && isNull (resolvedVal R k0 s0)) = true
                · rw [if_pos hreq0] at h ; exact Except.noConfusion h
                · rw [if_neg hreq0] at h
                  cases hft : s0.ftype with
                  | some t =>
                      simp only [hft] at h
                      obtain ⟨cv, _, h2⟩ := exceptBind_ok h
                      obtain ⟨a, ha, _⟩ := exceptBind_ok h2
                      exact ⟨a, ha⟩
                  | none =>
                      simp only [hft] at h
                      by_cases hn : isNull (resolvedVal R k0 s0) = true
                      · rw [if_pos hn] at h ; exact ⟨out, h⟩
                      · rw [if_neg hn] at h
                        obtain ⟨a, ha, _⟩ := exceptBind_ok h
                        exact ⟨a, ha⟩
              · rw [if_neg htr0] at h ; exact ⟨out, h⟩
        obtain ⟨out', hout'⟩ := htail
        exact ih out' hout' p hp s hs hreq htr

theorem convertDictGo_keys (R : List (String × Value)) :
    ∀ (ks : List (String × Option FieldSpec)) (out : List (String × Value)),
      convertDictGo R ks = .ok out → List.Sublist (out.map Prod.fst) (ks.map Prod.fst) := by
  intro ks
  induction ks with
  | nil =>
      intro out h
      rw [convertDictGo] at h
      rw [← Except.ok.inj h]
      exact List.Sublist.refl _
  | cons q rest ih =>
      intro out h
      obtain ⟨k0, e⟩ := q
      cases e with
      | none =>
          rw [convertDictGo] at h
          cases hlo : alookup R k0 with
          | some v =>
              simp only [hlo] at h
              by_cases hn : isNull v = true
              · rw [if_pos hn] at h
                exact List.Sublist.cons _ (ih out h)
              · rw [if_neg hn] at h
                obtain ⟨a, ha, h2⟩ := exceptBind_ok h
                rw [← Except.ok.inj h2, List.map_cons, List.map_cons]
                exact List.Sublist.cons₂ _ (ih a ha)
          | none =>
              simp only [hlo] at h
              exact List.Sublist.cons _ (ih out h)
      | some s =>
          rw [convertDictGo] at h
          by_cases htr : triggerB R k0 s = true
          · rw [if_pos htr] at h
            by_cases hreq : (s.required.isSome && isNull (resolvedVal R k0 s)) = true
            · rw [if_pos hreq] at h
              exact Except.noConfusion h
            · rw [if_neg hreq] at h
              cases hft : s.ftype with
              | some t =>
                  simp only [hft] at h
                  obtain ⟨cv, _, h2⟩ := exceptBind_ok h
                  obtain ⟨a, ha, h3⟩ := exceptBind_ok h2
                  rw [← Except.ok.inj h3, List.map_cons, List.map_cons]
                  exact List.Sublist.cons₂ _ (ih a ha)
              | none =>
                  simp only [hft] at h
                  by_cases hn : isNull (resolvedVal R k0 s) = true
                  · rw [if_pos hn] at h
                    exact List.Sublist.cons _ (ih out h)
                  · rw [if_neg hn] at h
                    obtain ⟨a, ha, h2⟩ := exceptBind_ok h
                    rw [← Except.ok.inj h2, List.map_cons, List.map_cons]
                    exact List.Sublist.cons₂ _ (ih a ha)
          · rw [if_neg htr] at h
            exact List.Sublist.cons _ (ih out h)

theorem convertDictGo_inclusion (R : List (String × Value)) :
    ∀ (ks : List (String × Option FieldSpec)) (out : List (String × Value)),
      (ks.map Prod.fst).Nodup → convertDictGo R ks = .ok out →
      ∀ p ∈ ks, ((alookup out p.1).isSome = true ↔ inclusionTail R p) := by
  intro ks
  induction ks with
  | nil => intro out _ _ p hp ; simp at hp
  | cons q rest ih =>
      intro out hnd h p hp
      obtain ⟨k0, e⟩ := q
      rw [List.map_cons, List.nodup_cons] at hnd
      have tailLookup : ∀ (a : List (String × Value)), convertDictGo R rest = .ok a →
          alookup a k0 = none := by
        intro a ha
        exact alookup_eq_none a k0 (fun hmem =>
          hnd.1 ((convertDictGo_keys R rest a ha).subset hmem))
      have tailStep : ∀ (hp' : p ∈ rest) (a : List (String × Value)),
          convertDictGo R rest = .ok a → ∀ (v : Value),
          ((alookup ((k0, v) :: a) p.1).isSome = true ↔ inclusionTail R p) := by
        intro hp' a ha v
        have hne : (k0 == p.1) = false := by
          have : p.1 ∈ rest.map Prod.fst := List.mem_map_of_mem Prod.fst hp'
          exact beq_eq_false_iff_ne.mpr (fun hh => hnd.1 (hh ▸ this))
        rw [alookup, if_neg (by simp [hne])]
        exact ih a hnd.2 ha p hp'
      rcases List.mem_cons.mp hp with hph | hptail
      · -- head entry
        cases e with
        | none =>
              subst hph
              rw [convertDictGo] at h
              cases hlo : alookup R k0 with
              | some v =>
                  simp only [hlo] at h
                  by_cases hn : isNull v = true
                  · rw [if_pos hn] at h
                    rw [tailLookup out h]
                    simp only [inclusionTail, hlo]
                    constructor
                    · intro hfalse ; exact absurd hfalse (by simp)
                    · rintro ⟨v', hv', hnn⟩
                      rw [← Option.some.inj hv'] at hnn
                      rw [hn] at hnn
                      exact absurd hnn (by simp)
                  · rw [if_neg hn] at h
                    obtain ⟨a, ha, h2⟩ := exceptBind_ok h
                    rw [← Except.ok.inj h2]
                    rw [alookup, if_pos (by simp)]
                    simp only [inclusionTail, hlo, Option.isSome_some]
                    exact ⟨fun _ => ⟨v, rfl, by simpa using hn⟩, fun _ => by simp⟩
              | none =>
                  simp only [hlo] at h
                  rw [tailLookup out h]
                  simp only [inclusionTail, hlo]
                  constructor
                  · intro hfalse ; exact absurd hfalse (by simp)
                  · rintro ⟨v', hv', _⟩ ; exact Option.noConfusion hv'
        | some s =>
              subst hph
              rw [convertDictGo] at h
              by_cases htr : triggerB R k0 s = true
              · rw [if_pos htr] at h
                by_cases hreq : (s.required.isSome && isNull (resolvedVal R k0 s)) = true
                · rw [if_pos hreq] at h
                  exact Except.noConfusion h
                · rw [if_neg hreq] at h
                  cases hft : s.ftype with
                  | some t =>
                      simp only [hft] at h
                      obtain ⟨cv, _, h2⟩ := exceptBind_ok h
                      obtain ⟨a, ha, h3⟩ := exceptBind_ok h2
                      rw [← Except.ok.inj h3]
                      rw [alookup, if_pos (by simp)]
                      simp only [inclusionTail, Option.isSome_some]
                      exact ⟨fun _ => ⟨htr, Or.inl (by rw [hft] ; rfl)⟩, fun _ => by simp⟩
                  | none =>
                      simp only [hft] at h
                      by_cases hn : isNull (resolvedVal R k0 s) = true
                      · rw [if_pos hn] at h
                        rw [tailLookup out h]
                        simp only [inclusionTail]
                        constructor
                        · intro hfalse ; exact absurd hfalse (by simp)
                        · rintro ⟨_, hor⟩
                          rcases hor with hl | hr
                          · rw [hft] at hl
                            exact absurd hl (by simp)
                          · rw [hn] at hr
                            exact absurd hr (by simp)
                      · rw [if_neg hn] at h
                        obtain ⟨a, ha, h2⟩ := exceptBind_ok h
                        rw [← Except.ok.inj h2]
                        rw [alookup, if_pos (by simp)]
                        simp only [inclusionTail, Option.isSome_some]
                        exact ⟨fun _ => ⟨htr, Or.inr (by simpa using hn)⟩, fun _ => by simp⟩
              · rw [if_neg htr] at h
                rw [tailLookup out h]
                simp only [inclusionTail]
                constructor
                · intro hfalse ; exact absurd hfalse (by simp)
                · rintro ⟨htr', _⟩ ; exact absurd htr' htr
      · -- tail entry
        cases e with
        | none =>
              rw [convertDictGo] at h
              cases hlo : alookup R k0 with
              | some v =>
                  simp only [hlo] at h
                  by_cases hn : isNull v = true
                  · rw [if_pos hn] at h
                    exact ih out hnd.2 h p hptail
                  · rw [if_neg hn] at h
                    obtain ⟨a, ha, h2⟩ := exceptBind_ok h
                    rw [← Except.ok.inj h2]
                    exact tailStep hptail a ha v
              | none =>
                  simp only [hlo] at h
                  exact ih out hnd.2 h p hptail
        | some s =>
              rw [convertDictGo] at h
              by_cases htr : triggerB R k0 s = true
              · rw [if_pos htr] at h
                by_cases hreq : (s.required.isSome && isNull (resolvedVal R k0 s)) = true
                · rw [if_pos hreq] at h
                  exact Except.noConfusion h
                · rw [if_neg hreq] at h
                  cases hft : s.ftype with
                  | some t =>
                      simp only [hft] at h
                      obtain ⟨cv, _, h2⟩ := exceptBind_ok h
                      obtain ⟨a, ha, h3⟩ := exceptBind_ok h2
                      rw [← Except.ok.inj h3]
                      exact tailStep hptail a ha cv
                  | none =>
                      simp only [hft] at h
                      by_cases hn : isNull (resolvedVal R k0 s) = true
                      · rw [if_pos hn] at h
                        exact ih out hnd.2 h p hptail
                      · rw [if_neg hn] at h
                        obtain ⟨a, ha, h2⟩ := exceptBind_ok h
                        rw [← Except.ok.inj h2]
                        exact tailStep hptail a ha (resolvedVal R k0 s)
              · rw [if_neg htr] at h
                exact ih out hnd.2 h p hptail

theorem fixEntry_not_missing (e : Option RawFieldSpec) (k : String) :
    fixEntry e ≠ .error (.missingRequired k) := by
  intro h
  cases e with
  | none => exact Except.noConfusion h
  | some s =>
      obtain ⟨req, dv, en, bt, tr⟩ := s
      cases en <;> cases bt <;> simp only [fixEntry] at h <;> (try split at h) <;> simp_all

theorem fixIdKeys_not_missing :
    ∀ (S : List (String × Option RawFieldSpec)) (k : String),
      fixIdKeys S ≠ .error (.missingRequired k) := by
  intro S
  induction S with
  | nil => intro k h ; exact Except.noConfusion h
  | cons p rest ih =>
      intro k h
      rw [fixIdKeys] at h
      rcases exceptBind_err h with h' | ⟨fe, _, h2⟩
      · exact fixEntry_not_missing p.2 k h'
      · rcases exceptBind_err h2 with h'' | ⟨frest, _, h3⟩
        · exact ih k h''
        · exact Except.noConfusion h3

/-- C2 (amended): identifier construction behaves as follows.  (a) With an
empty raw mapping construction always succeeds with an *empty* identifier —
no required check runs.  (b) A `MissingRequiredField` error implies the raw
mapping is non-empty and names a schema field that *declares* the `required`
marker (with any value), is triggered (raw contains the key, or the default
is non-null, or `required` is truthy) and resolves to null.  (c) Conversely a
successful construction from a non-empty raw mapping resolves every
triggered required-declaring field to a non-null value.  (d) A successful
construction from a non-empty raw mapping includes a schema field iff: for a
null schema entry, the raw mapping holds a non-null value for it; for a
non-null entry, it is triggered and either declares a type or resolves
non-null.  (e) A successful construction from an empty raw mapping has no
fields. -/
theorem dataID_construction_amended (S : List (String × Option RawFieldSpec))
    (R : List (String × Value)) :
    (∀ F, fixIdKeys S = .ok F → DataID.build S [] = .ok ⟨S, F, []⟩)
    ∧ (∀ k, DataID.build S R = .error (.missingRequired k) →
        R ≠ [] ∧ ∃ F, fixIdKeys S = .ok F ∧ ∃ p ∈ F, p.1 = k ∧ ∃ s, p.2 = some s ∧
          s.required.isSome = true ∧ triggerB R k s = true ∧
          isNull (resolvedVal R k s) = true)
    ∧ (∀ d, DataID.build S R = .ok d → R = [] ∨
        ∀ p ∈ d.idKeys, ∀ s, p.2 = some s → s.required.isSome = true →
          triggerB R p.1 s = true → isNull (resolvedVal R p.1 s) = false)
    ∧ ((S.map Prod.fst).Nodup → ∀ d, DataID.build S R = .ok d → R ≠ [] →
        ∀ p ∈ d.idKeys, ((alookup d.fields p.1).isSome = true ↔ inclusionTail R p))
    ∧ (∀ d, DataID.build S R = .ok d → R = [] → d.fields = []) := by
  refine ⟨?_, ?_, ?_, ?_, ?_⟩
  · intro F h
    rw [DataID.build]
    rw [h]
    simp [Bind.bind, Except.bind, convertDict]
  · intro k h
    rw [DataID.build] at h
    rcases exceptBind_err h with h' | ⟨F, hF, h2⟩
    · exact absurd h' (fixIdKeys_not_missing S k)
    · rcases exceptBind_err h2 with h'' | ⟨flds, _, h3⟩
      · rw [convertDict] at h''
        by_cases hR : R.isEmpty = true
        · rw [if_pos hR] at h''
          exact Except.noConfusion h''
        · rw [if_neg hR] at h''
          refine ⟨by simpa [List.isEmpty_iff] using hR, F, hF, ?_⟩
          exact convertDictGo_missing R F k h''
      · exact Except.noConfusion h3
  · intro d h
    by_cases hR : R = []
    · exact Or.inl hR
    · right
      rw [DataID.build] at h
      obtain ⟨F, hF, h2⟩ := exceptBind_ok h
      obtain ⟨flds, hflds, h3⟩ := exceptBind_ok h2
      have hd : d = ⟨S, F, flds⟩ := (Except.ok.inj h3).symm
      subst hd
      rw [convertDict, if_neg (by simpa [List.isEmpty_iff] using hR)] at hflds
      intro p hp s hs hreq htr
      exact convertDictGo_ok_required R F flds hflds p hp s hs hreq htr
  · intro hnd d h hR p hp
    rw [DataID.build] at h
    obtain ⟨F, hF, h2⟩ := exceptBind_ok h
    obtain ⟨flds, hflds, h3⟩ := exceptBind_ok h2
    have hd : d = ⟨S, F, flds⟩ := (Except.ok.inj h3).symm
    subst hd
    rw [convertDict, if_neg (by simpa [List.isEmpty_iff] using hR)] at hflds
    have hndF : (F.map Prod.fst).Nodup := by
      rw [fixIdKeys_keys S F hF]
      exact hnd
    exact convertDictGo_inclusion R F flds hndF hflds p hp
  · intro d h hR
    subst hR
    rw [DataID.build] at h
    obtain ⟨F, _, h2⟩ := exceptBind_ok h
    obtain ⟨flds, hflds, h3⟩ := exceptBind_ok h2
    have hd : d = ⟨S, F, flds⟩ := (Except.ok.inj h3).symm
    subst hd
    rw [convertDict] at hflds
    simp only [List.isEmpty_nil, if_pos] at hflds
    exact (Except.ok.inj hflds).symm

/-! Claim C4: the pickling reduction round trip of an identifier. -/

/-- Claim C4 at a schema and raw mapping: every identifier built from them is
reproduced, equal and with equal hash, by rebuilding from
`(orig_id_keys, to_dict())` — the pair `__reduce__` hands to `_unpickle`. -/
def claimC4At (S : List (String × Option RawFieldSpec)) (R : List (String × Value)) : Prop :=
  ∀ d, DataID.build S R = .ok d →
    ∃ d2, DataID.unpickle d = .ok d2 ∧ dataIDEqB d2 d = true ∧
      dataIDHashItems d2 = dataIDHashItems d

/-- Counterexample to C4 as stated: with schema
`{f: {default: 5}, g: {}}` and raw attributes `{f: None, g: 7}`, the built
identifier is `{g: 7}` (the explicit `None` suppresses the default), but its
`to_dict` no longer records that `f` was suppressed, so reconstruction
re-applies the default and yields `{f: 5, g: 7}`, a *different* identifier. -/
theorem unpickle_roundtrip_counterexample :
    ¬ claimC4At
      [("f", some ⟨none, .num 5, none, none, none⟩), ("g", some ⟨none, .null, none, none, none⟩)]
      [("f", .null), ("g", .num 7)] := by
  intro h
  obtain ⟨d2, hd2, heq, _⟩ := h
    ⟨[("f", some ⟨none, .num 5, none, none, none⟩), ("g", some ⟨none, .null, none, none, none⟩)],
     [("f", some ⟨none, .num 5, none, none⟩), ("g", some ⟨none, .null, none, none⟩)],
     [("g", .num 7)]⟩ rfl
  have hval : d2 = ⟨[("f", some ⟨none, .num 5, none, none, none⟩),
      ("g", some ⟨none, .null, none, none, none⟩)],
     [("f", some ⟨none, .num 5, none, none⟩), ("g", some ⟨none, .null, none, none⟩)],
     [("f", .num 5), ("g", .num 7)]⟩ := (Except.ok.inj hd2).symm
  rw [hval] at heq
  have hfalse : (false : Bool) = true := heq
  exact Bool.noConfusion hfalse

theorem valueEq_toDictVal (v : Value) : valueEq (toDictVal v) v = true := by
  cases v with
  | enumV n o => simp [toDictVal, strEqVal]
  | _ => exact valueEq_refl _

theorem canonVal_toDictVal (v : Value) : canonVal (toDictVal v) = canonVal v := by
  cases v <;> rfl

theorem isNull_toDictVal (v : Value) : isNull (toDictVal v) = isNull v := by
  cases v <;> rfl

theorem typeConvert_null_of (t : FType) (v w : Value)
    (h : typeConvert t v = .ok w) (hw : isNull w = true) : isNull v = true := by
  cases t with
  | enumT names =>
      cases v <;> simp only [typeConvert, enumConvert] at h <;> (try split at h) <;>
        (try exact Except.noConfusion h) <;>
        (rw [← Except.ok.inj h] at hw ; exact Bool.noConfusion hw)
  | wavelengthT =>
      cases v <;> simp only [typeConvert, wlConvert] at h <;> (try split at h) <;>
        (try exact Except.noConfusion h) <;>
        first
        | rfl
        | (rw [← Except.ok.inj h] at hw ; exact Bool.noConfusion hw)
  | modifierT =>
      cases v <;> simp only [typeConvert, modConvert] at h <;>
        (try exact Except.noConfusion h) <;>
        first
        | rfl
        | (rw [← Except.ok.inj h] at hw ; exact Bool.noConfusion hw)

theorem enumConvert_roundtrip (names : List String) (r v : Value)
    (h : enumConvert names r = .ok v) :
    ∃ v2, enumConvert names (toDictVal v) = .ok v2 ∧ valueEq v2 v = true ∧
      canonVal v2 = canonVal v := by
  cases r with
  | str s =>
      simp only [enumConvert] at h
      cases hfi : names.findIdx? (fun x => x == s) with
      | none => rw [hfi] at h ; exact Except.noConfusion h
      | some i =>
          rw [hfi] at h
          cases Except.ok.inj h
          exact ⟨.enumV s (i + 1), by simp only [toDictVal, enumConvert, hfi],
            valueEq_refl _, rfl⟩
  | enumV n o =>
      simp only [enumConvert] at h
      cases hfi : names.findIdx? (fun x => x == n) with
      | none => rw [hfi] at h ; exact Except.noConfusion h
      | some i =>
          rw [hfi] at h
          cases Except.ok.inj h
          exact ⟨.enumV n (i + 1), by simp only [toDictVal, enumConvert, hfi],
            valueEq_refl _, rfl⟩
  | num x => exact Except.noConfusion h
  | wl a b c u => exact Except.noConfusion h
  | tup l => exact Except.noConfusion h
  | modT l => exact Except.noConfusion h
  | list l => exact Except.noConfusion h
  | null => exact Except.noConfusion h

theorem wlConvert_roundtrip (r v : Value) (h : wlConvert r = .ok v) :
    ∃ v2, wlConvert (toDictVal v) = .ok v2 ∧ valueEq v2 v = true ∧
      canonVal v2 = canonVal v := by
  cases r with
  | tup l =>
      simp only [wlConvert] at h
      split at h
      · cases Except.ok.inj h ; exact ⟨_, rfl, valueEq_refl _, rfl⟩
      · cases Except.ok.inj h ; exact ⟨_, rfl, valueEq_refl _, rfl⟩
      · exact Except.noConfusion h
  | list l =>
      simp only [wlConvert] at h
      split at h
      · cases Except.ok.inj h ; exact ⟨_, rfl, valueEq_refl _, rfl⟩
      · cases Except.ok.inj h ; exact ⟨_, rfl, valueEq_refl _, rfl⟩
      · exact Except.noConfusion h
  | modT l =>
      simp only [wlConvert] at h
      split at h
      · cases Except.ok.inj h ; exact ⟨_, rfl, valueEq_refl _, rfl⟩
      · cases Except.ok.inj h ; exact ⟨_, rfl, valueEq_refl _, rfl⟩
      · exact Except.noConfusion h
  | wl a b c u => cases Except.ok.inj h ; exact ⟨_, rfl, valueEq_refl _, rfl⟩
  | str s => cases Except.ok.inj h ; exact ⟨_, rfl, valueEq_refl _, rfl⟩
  | num x => cases Except.ok.inj h ; exact ⟨_, rfl, valueEq_refl _, rfl⟩
  | null => cases Except.ok.inj h ; exact ⟨_, rfl, valueEq_refl _, rfl⟩
  | enumV n o =>
      cases Except.ok.inj h
      exact ⟨.str n, rfl, by simp [strEqVal], rfl⟩

theorem modConvert_roundtrip (r v : Value) (h : modConvert r = .ok v) :
    ∃ v2, modConvert (toDictVal v) = .ok v2 ∧ valueEq v2 v = true ∧
      canonVal v2 = canonVal v := by
  cases r with
  | null => cases Except.ok.inj h ; exact ⟨_, rfl, valueEq_refl _, rfl⟩
  | modT l => cases Except.ok.inj h ; exact ⟨_, rfl, valueEq_refl _, rfl⟩
  | tup l => cases Except.ok.inj h ; exact ⟨_, rfl, valueEq_refl _, rfl⟩
  | list l => cases Except.ok.inj h ; exact ⟨_, rfl, valueEq_refl _, rfl⟩
  | str s => exact Except.noConfusion h
  | num x => exact Except.noConfusion h
  | enumV n o => exact Except.noConfusion h
  | wl a b c u => exact Except.noConfusion h

theorem typeConvert_roundtrip (t : FType) (r v : Value)
    (h : typeConvert t r = .ok v) :
    ∃ v2, typeConvert t (toDictVal v) = .ok v2 ∧ valueEq v2 v = true ∧
      canonVal v2 = canonVal v := by
  cases t with
  | enumT names => exact enumConvert_roundtrip names r v h
  | wavelengthT => exact wlConvert_roundtrip r v h
  | modifierT => exact modConvert_roundtrip r v h

theorem alookup_cons_ne {α : Type} (k0 k : String) (v : α) (l : List (String × α))
    (h : (k0 == k) = false) : alookup ((k0, v) :: l) k = alookup l k := by
  rw [alookup, if_neg (by simp [h])]

theorem alookup_cons_self {α : Type} (k0 : String) (v : α) (l : List (String × α)) :
    alookup ((k0, v) :: l) k0 = some v := by
  rw [alookup, if_pos (by simp)]

theorem alookup_mapVal (f : Value → Value) :
    ∀ (l : List (String × Value)) (k : String),
      alookup (l.map (fun p => (p.1, f p.2))) k = (alookup l k).map f := by
  intro l
  induction l with
  | nil => intro k ; rfl
  | cons p rest ih =>
      intro k
      rw [List.map_cons, alookup, alookup]
      cases hk : p.1 == k
      · rw [if_neg Bool.false_ne_true, if_neg Bool.false_ne_true]
        exact ih k
      · rw [if_pos rfl, if_pos rfl]
        rfl

/-- Field-by-field correspondence between a rebuilt and an original curated
mapping: same key, Python-equal values, equal canonical (hash) forms. -/
def fieldSim (p q : String × Value) : Prop :=
  p.1 = q.1 ∧ valueEq p.2 q.2 = true ∧ canonVal p.2 = canonVal q.2

theorem forall2_alookup (out2 out : List (String × Value))
    (hf : List.Forall₂ fieldSim out2 out) :
    (out.map Prod.fst).Nodup →
    ∀ p ∈ out2, ∃ w, alookup out p.1 = some w ∧ valueEq p.2 w = true := by
  induction hf with
  | nil =>
      intro _ p hp
      exact absurd hp (List.not_mem_nil p)
  | cons hpq htail ih =>
      rename_i a b l1 l2
      intro hnd p hp
      rw [List.map_cons] at hnd
      rcases List.mem_cons.mp hp with rfl | hp2
      · exact ⟨b.2, by rw [show b = (b.1, b.2) from rfl, hpq.1, alookup_cons_self],
          hpq.2.1⟩
      · obtain ⟨w, hw, hvw⟩ := ih (List.Nodup.of_cons hnd) p hp2
        refine ⟨w, ?_, hvw⟩
        have hne : (b.1 == p.1) = false := by
          cases hbk : b.1 == p.1
          · rfl
          · have hb : b.1 = p.1 := eq_of_beq hbk
            have hmem : p.1 ∈ l2.map Prod.fst :=
              mem_of_alookup_isSome l2 p.1 (by rw [hw] ; rfl)
            rw [← hb] at hmem
            exact absurd hmem (List.nodup_cons.mp hnd).1
        rw [show b = (b.1, b.2) from rfl, alookup_cons_ne b.1 p.1 b.2 l2 hne]
        exact hw

theorem forall2_canon_map (out2 out : List (String × Value))
    (hf : List.Forall₂ fieldSim out2 out) :
    out2.map (fun p => (p.1, canonVal p.2)) = out.map (fun p => (p.1, canonVal p.2)) := by
  induction hf with
  | nil => rfl
  | cons hpq htail ih =>
      rw [List.map_cons, List.map_cons, ih, hpq.1, hpq.2.2]

/-- Re-curating the `to_dict` rendering of a successful curation reproduces it
field for field, provided every schema field with a non-null default made it
into the original result (`hdef`): same keys in the same order, Python-equal
values, equal hash forms.  `FR` stands for the rendered mapping: its lookups
agree with the original output's, enum members rendered as names. -/
theorem convertDictGo_roundtrip (R FR : List (String × Value)) :
    ∀ (ks : List (String × Option FieldSpec)) (out : List (String × Value)),
      (ks.map Prod.fst).Nodup → convertDictGo R ks = .ok out →
      (∀ k ∈ ks.map Prod.fst, alookup FR k = (alookup out k).map toDictVal) →
      (∀ p ∈ ks, ∀ s, p.2 = some s → isNull s.defaultVal = false →
        (alookup out p.1).isSome = true) →
      ∃ out2, convertDictGo FR ks = .ok out2 ∧ List.Forall₂ fieldSim out2 out := by
  intro ks
  induction ks with
  | nil =>
      intro out _ h _ _
      rw [convertDictGo] at h
      rw [← Except.ok.inj h]
      exact ⟨[], by rw [convertDictGo], List.Forall₂.nil⟩
  | cons q rest ih =>
      intro out hnd h hcorr hdef
      obtain ⟨k0, e⟩ := q
      rw [List.map_cons] at hnd
      have hnd2 : (rest.map Prod.fst).Nodup := List.Nodup.of_cons hnd
      have hk0 : k0 ∉ rest.map Prod.fst := (List.nodup_cons.mp hnd).1
      have hcorr0 : alookup FR k0 = (alookup out k0).map toDictVal :=
        hcorr k0 (List.mem_cons_self _ _)
      cases e with
      | none =>
          rw [convertDictGo] at h
          cases hlo : alookup R k0 with
          | some v =>
              simp only [hlo] at h
              by_cases hn : isNull v = true
              · rw [if_pos hn] at h
                have hout : alookup out k0 = none :=
                  alookup_eq_none out k0
                    (fun hm => hk0 ((convertDictGo_keys R rest out h).subset hm))
                have hfr : alookup FR k0 = none := by rw [hcorr0, hout] ; rfl
                obtain ⟨out2, hok2, hsim⟩ := ih out hnd2 h
                  (fun k hk => hcorr k (List.mem_cons_of_mem _ hk))
                  (fun p hp s hs hds => hdef p (List.mem_cons_of_mem _ hp) s hs hds)
                refine ⟨out2, ?_, hsim⟩
                rw [convertDictGo]
                simp only [hfr]
                exact hok2
              · rw [if_neg hn] at h
                obtain ⟨tail, htail, h2⟩ := exceptBind_ok h
                cases Except.ok.inj h2
                have hbk : ∀ k ∈ rest.map Prod.fst, (k0 == k) = false := by
                  intro k hk
                  cases hbk : k0 == k
                  · rfl
                  · have := eq_of_beq hbk
                    subst this
                    exact absurd hk hk0
                have hcorr2 : ∀ k ∈ rest.map Prod.fst,
                    alookup FR k = (alookup tail k).map toDictVal := by
                  intro k hk
                  have := hcorr k (List.mem_cons_of_mem _ hk)
                  rwa [alookup_cons_ne k0 k v tail (hbk k hk)] at this
                have hfr : alookup FR k0 = some (toDictVal v) := by
                  rw [hcorr0, alookup_cons_self] ; rfl
                obtain ⟨out2, hok2, hsim⟩ := ih tail hnd2 htail hcorr2
                  (fun p hp s hs hds => by
                    have := hdef p (List.mem_cons_of_mem _ hp) s hs hds
                    rwa [alookup_cons_ne k0 p.1 v tail
                      (hbk p.1 (List.mem_map_of_mem Prod.fst hp))] at this)
                refine ⟨(k0, toDictVal v) :: out2, ?_, ?_⟩
                · rw [convertDictGo]
                  simp only [hfr]
                  rw [if_neg (by rw [isNull_toDictVal] ; exact hn)]
                  rw [hok2]
                  rfl
                · exact List.Forall₂.cons ⟨rfl, valueEq_toDictVal v, canonVal_toDictVal v⟩ hsim
          | none =>
              simp only [hlo] at h
              have hout : alookup out k0 = none :=
                alookup_eq_none out k0
                  (fun hm => hk0 ((convertDictGo_keys R rest out h).subset hm))
              have hfr : alookup FR k0 = none := by rw [hcorr0, hout] ; rfl
              obtain ⟨out2, hok2, hsim⟩ := ih out hnd2 h
                (fun k hk => hcorr k (List.mem_cons_of_mem _ hk))
                (fun p hp s hs hds => hdef p (List.mem_cons_of_mem _ hp) s hs hds)
              refine ⟨out2, ?_, hsim⟩
              rw [convertDictGo]
              simp only [hfr]
              exact hok2
      | some s =>
          rw [convertDictGo] at h
          by_cases htr : triggerB R k0 s = true
          · rw [if_pos htr] at h
            by_cases hreq : (s.required.isSome && isNull (resolvedVal R k0 s)) = true
            · rw [if_pos hreq] at h
              exact Except.noConfusion h
            · rw [if_neg hreq] at h
              cases hft : s.ftype with
              | some t =>
                  simp only [hft] at h
                  obtain ⟨cv, hcv, h2⟩ := exceptBind_ok h
                  obtain ⟨tail, htail, h3⟩ := exceptBind_ok h2
                  cases Except.ok.inj h3
                  have hbk : ∀ k ∈ rest.map Prod.fst, (k0 == k) = false := by
                    intro k hk
                    cases hb : k0 == k
                    · rfl
                    · have := eq_of_beq hb
                      subst this
                      exact absurd hk hk0
                  have hcorr2 : ∀ k ∈ rest.map Prod.fst,
                      alookup FR k = (alookup tail k).map toDictVal := by
                    intro k hk
                    have := hcorr k (List.mem_cons_of_mem _ hk)
                    rwa [alookup_cons_ne k0 k cv tail (hbk k hk)] at this
                  have hfr : alookup FR k0 = some (toDictVal cv) := by
                    rw [hcorr0, alookup_cons_self] ; rfl
                  have hres2 : resolvedVal FR k0 s = toDictVal cv := by
                    simp only [resolvedVal, hfr]
                  have htr2 : triggerB FR k0 s = true := by
                    simp [triggerB, hfr]
                  have hreq2 : (s.required.isSome && isNull (resolvedVal FR k0 s)) = false := by
                    cases hri : s.required.isSome
                    · rw [Bool.false_and]
                    · cases hrn : isNull (resolvedVal R k0 s)
                      · rw [hres2, isNull_toDictVal]
                        cases hcn : isNull cv
                        · rw [Bool.and_false]
                        · rw [typeConvert_null_of t _ cv hcv hcn] at hrn
                          exact Bool.noConfusion hrn
                      · rw [hri, hrn] at hreq
                        exact absurd rfl hreq
                  obtain ⟨cv2, hcv2, hveq, hcanon⟩ := typeConvert_roundtrip t _ cv hcv
                  obtain ⟨out2, hok2, hsim⟩ := ih tail hnd2 htail hcorr2
                    (fun p hp s2 hs hds => by
                      have := hdef p (List.mem_cons_of_mem _ hp) s2 hs hds
                      rwa [alookup_cons_ne k0 p.1 cv tail
                        (hbk p.1 (List.mem_map_of_mem Prod.fst hp))] at this)
                  refine ⟨(k0, cv2) :: out2, ?_,
                    List.Forall₂.cons ⟨rfl, hveq, hcanon⟩ hsim⟩
                  rw [convertDictGo, if_pos htr2, if_neg (by simp [hreq2])]
                  simp only [hft]
                  rw [hres2, hcv2, hok2]
                  rfl
              | none =>
                  simp only [hft] at h
                  by_cases hn : isNull (resolvedVal R k0 s) = true
                  · rw [if_pos hn] at h
                    have hout : alookup out k0 = none :=
                      alookup_eq_none out k0
                        (fun hm => hk0 ((convertDictGo_keys R rest out h).subset hm))
                    have hfr : alookup FR k0 = none := by rw [hcorr0, hout] ; rfl
                    cases hri : s.required with
                    | some b =>
                        rw [hri] at hreq
                        simp only [Option.isSome_some, Bool.true_and] at hreq
                        exact absurd hn hreq
                    | none =>
                        have hdn : isNull s.defaultVal = true := by
                          cases hdn : isNull s.defaultVal
                          · have := hdef (k0, some s) (List.mem_cons_self _ _) s rfl hdn
                            rw [hout] at this
                            exact Bool.noConfusion this
                          · rfl
                        have htr2 : triggerB FR k0 s = false := by
                          simp only [triggerB, hfr, hri, hdn]
                          rfl
                        obtain ⟨out2, hok2, hsim⟩ := ih out hnd2 h
                          (fun k hk => hcorr k (List.mem_cons_of_mem _ hk))
                          (fun p hp s2 hs hds => hdef p (List.mem_cons_of_mem _ hp) s2 hs hds)
                        refine ⟨out2, ?_, hsim⟩
                        rw [convertDictGo, if_neg (by simp [htr2])]
                        exact hok2
                  · rw [if_neg hn] at h
                    obtain ⟨tail, htail, h2⟩ := exceptBind_ok h
                    cases Except.ok.inj h2
                    have hbk : ∀ k ∈ rest.map Prod.fst, (k0 == k) = false := by
                      intro k hk
                      cases hb : k0 == k
                      · rfl
                      · have := eq_of_beq hb
                        subst this
                        exact absurd hk hk0
                    have hcorr2 : ∀ k ∈ rest.map Prod.fst,
                        alookup FR k = (alookup tail k).map toDictVal := by
                      intro k hk
                      have := hcorr k (List.mem_cons_of_mem _ hk)
                      rwa [alookup_cons_ne k0 k (resolvedVal R k0 s) tail (hbk k hk)] at this
                    have hfr : alookup FR k0 = some (toDictVal (resolvedVal R k0 s)) := by
                      rw [hcorr0, alookup_cons_self] ; rfl
                    have hres2 : resolvedVal FR k0 s = toDictVal (resolvedVal R k0 s) := by
                      simp only [resolvedVal, hfr]
                    have htr2 : triggerB FR k0 s = true := by
                      simp [triggerB, hfr]
                    have hnd3 : isNull (toDictVal (resolvedVal R k0 s)) = false := by
                      rw [isNull_toDictVal]
                      cases hx : isNull (resolvedVal R k0 s)
                      · rfl
                      · exact absurd hx hn
                    have hreq2 : (s.required.isSome && isNull (resolvedVal FR k0 s)) = false := by
                      rw [hres2, hnd3, Bool.and_false]
                    obtain ⟨out2, hok2, hsim⟩ := ih tail hnd2 htail hcorr2
                      (fun p hp s2 hs hds => by
                        have := hdef p (List.mem_cons_of_mem _ hp) s2 hs hds
                        rwa [alookup_cons_ne k0 p.1 (resolvedVal R k0 s) tail
                          (hbk p.1 (List.mem_map_of_mem Prod.fst hp))] at this)
                    refine ⟨(k0, toDictVal (resolvedVal R k0 s)) :: out2, ?_,
                      List.Forall₂.cons ⟨rfl, valueEq_toDictVal _, canonVal_toDictVal _⟩ hsim⟩
                    rw [convertDictGo, if_pos htr2, if_neg (by simp [hreq2])]
                    simp only [hft]
                    rw [hres2, hnd3]
                    rw [if_neg Bool.false_ne_true, hok2]
                    rfl
          · rw [if_neg htr] at h
            have hout : alookup out k0 = none :=
              alookup_eq_none out k0
                (fun hm => hk0 ((convertDictGo_keys R rest out h).subset hm))
            have hfr : alookup FR k0 = none := by rw [hcorr0, hout] ; rfl
            have htr1 : triggerB R k0 s = false := by
              cases htrb : triggerB R k0 s
              · rfl
              · exact absurd htrb htr
            have htr2 : triggerB FR k0 s = false := by
              simp only [triggerB] at htr1 ⊢
              rw [hfr]
              rcases Bool.or_eq_false_iff.mp htr1 with ⟨h12, h3⟩
              rcases Bool.or_eq_false_iff.mp h12 with ⟨_, h2⟩
              rw [h2, h3]
              rfl
            obtain ⟨out2, hok2, hsim⟩ := ih out hnd2 h
              (fun k hk => hcorr k (List.mem_cons_of_mem _ hk))
              (fun p hp s2 hs hds => hdef p (List.mem_cons_of_mem _ hp) s2 hs hds)
            refine ⟨out2, ?_, hsim⟩
            rw [convertDictGo, if_neg (by simp [htr2])]
            exact hok2

/-- Claim C4 (amended): rebuilding an identifier from the pair
`(orig_id_keys, to_dict())` that `__reduce__` hands to `_unpickle` succeeds
and yields an identifier equal to the original (Python `==`, same keys in the
same order) with the same hash items, PROVIDED the schema keys are distinct
and either the original's field mapping is empty (the `if not keyvals`
shortcut then reproduces it) or every schema field carrying a non-null
default actually holds a value in the original — otherwise reconstruction
re-applies a suppressed default and the round trip fails, as
`unpickle_roundtrip_counterexample` shows. -/
theorem dataID_unpickle_roundtrip (S : List (String × Option RawFieldSpec))
    (R : List (String × Value)) (d : DataID)
    (hnd : (S.map Prod.fst).Nodup)
    (hok : DataID.build S R = .ok d)
    (hdef : d.fields = [] ∨ ∀ p ∈ d.idKeys, ∀ s, p.2 = some s →
      isNull s.defaultVal = false → (alookup d.fields p.1).isSome = true) :
    ∃ d2, DataID.unpickle d = .ok d2 ∧ dataIDEqB d2 d = true ∧
      dataIDHashItems d2 = dataIDHashItems d := by
  simp only [DataID.build] at hok
  obtain ⟨fixed, hfix, h2⟩ := exceptBind_ok hok
  obtain ⟨flds, hflds, h3⟩ := exceptBind_ok h2
  cases Except.ok.inj h3
  have hkeys : fixed.map Prod.fst = S.map Prod.fst := fixIdKeys_keys S fixed hfix
  have hndf : (fixed.map Prod.fst).Nodup := by rw [hkeys] ; exact hnd
  cases flds with
  | nil =>
      refine ⟨⟨S, fixed, []⟩, ?_, rfl, rfl⟩
      show DataID.build S ([] : List (String × Value)) = .ok ⟨S, fixed, []⟩
      simp only [DataID.build]
      rw [hfix]
      rfl
  | cons p0 rest =>
      have hgo : convertDictGo R fixed = .ok (p0 :: rest) := by
        simp only [convertDict] at hflds
        by_cases hRe : R.isEmpty = true
        · rw [if_pos hRe] at hflds
          exact List.noConfusion (Except.ok.inj hflds)
        · rw [if_neg hRe] at hflds
          exact hflds
      have hdef2 : ∀ p ∈ fixed, ∀ s, p.2 = some s → isNull s.defaultVal = false →
          (alookup (p0 :: rest) p.1).isSome = true := by
        rcases hdef with h0 | h1
        · exact absurd h0 (List.cons_ne_nil p0 rest)
        · exact h1
      obtain ⟨out2, hok2, hsim⟩ := convertDictGo_roundtrip R
        ((p0 :: rest).map (fun q => (q.1, toDictVal q.2))) fixed (p0 :: rest) hndf hgo
        (fun k _ => alookup_mapVal toDictVal (p0 :: rest) k)
        hdef2
      have hndflds : ((p0 :: rest).map Prod.fst).Nodup :=
        List.Nodup.sublist (convertDictGo_keys R fixed (p0 :: rest) hgo) hndf
      refine ⟨⟨S, fixed, out2⟩, ?_, ?_, ?_⟩
      · show DataID.build S ((p0 :: rest).map (fun q => (q.1, toDictVal q.2))) =
          .ok ⟨S, fixed, out2⟩
        simp only [DataID.build]
        rw [hfix]
        show convertDict fixed ((p0 :: rest).map (fun q => (q.1, toDictVal q.2))) >>=
            (fun fl => Except.ok (⟨S, fixed, fl⟩ : DataID)) = .ok ⟨S, fixed, out2⟩
        have hcd : convertDict fixed ((p0 :: rest).map (fun q => (q.1, toDictVal q.2))) =
            .ok out2 := by
          simp only [convertDict]
          rw [if_neg (by simp)]
          exact hok2
        rw [hcd]
        rfl
      · simp only [dataIDEqB]
        rw [Bool.and_eq_true]
        constructor
        · rw [hsim.length_eq]
          exact beq_self_eq_true _
        · rw [List.all_eq_true]
          intro p hp
          obtain ⟨w, hw, hv⟩ := forall2_alookup out2 (p0 :: rest) hsim hndflds p hp
          simp only [hw]
          exact hv
      · simp only [dataIDHashItems]
        exact congrArg sortByKey (forall2_canon_map out2 (p0 :: rest) hsim)

/-- The amended round trip at the concrete schema with one field `name`
defaulting to the string `d`, original attributes mapping `name` to `a`. -/
theorem dataID_unpickle_roundtrip_witness :
    ∃ d2, DataID.unpickle ⟨[("name", some ⟨none, .str "d", none, none, none⟩)],
        [("name", some ⟨none, .str "d", none, none⟩)], [("name", .str "a")]⟩ = .ok d2 ∧
      dataIDEqB d2 ⟨[("name", some ⟨none, .str "d", none, none, none⟩)],
        [("name", some ⟨none, .str "d", none, none⟩)], [("name", .str "a")]⟩ = true ∧
      dataIDHashItems d2 = dataIDHashItems ⟨[("name", some ⟨none, .str "d", none, none, none⟩)],
        [("name", some ⟨none, .str "d", none, none⟩)], [("name", .str "a")]⟩ :=
  dataID_unpickle_roundtrip
    [("name", some ⟨none, .str "d", none, none, none⟩)]
    [("name", .str "a")]
    ⟨[("name", some ⟨none, .str "d", none, none, none⟩)],
     [("name", some ⟨none, .str "d", none, none⟩)], [("name", .str "a")]⟩
    (by simp)
    rfl
    (Or.inr (by
      intro p hp s2 hs hds
      rw [List.mem_singleton] at hp
      subst hp
      rfl))

/-! Claim C1: ranking of infeasible candidates in `sort_dataids`. -/

/-- The candidate lacks a field the query explicitly constrains (a query key
whose value is not the literal wildcard; `sort_dataids` treats every
non-wildcard query value, `None` included, as a constraint). -/
def constrainedMissingB (q : List (String × Value)) (d : DataID) : Bool :=
  q.any (fun p => !(isWildcard p.2) && !(alookup d.fields p.1).isSome)

/-- Some constrained query key's candidate value fails the allowed-value check
of `sort_dataids` (the `dataid_val not in val` test after wrapping a non-list
query value into a one-element list; `WavelengthRange` candidate values take
the `distance` path instead and are excluded here). -/
def valueFailB (q : List (String × Value)) (d : DataID) : Bool :=
  q.any (fun p => !(isWildcard p.2) &&
    (match alookup d.fields p.1 with
     | some (.wl _ _ _ _) => false
     | some dv => !(pyContains (normalizeQVal p.2) dv)
     | none => false))

/-- A feasible candidate: neither missing a constrained field nor failing an
allowed-value check. -/
def feasibleB (q : List (String × Value)) (d : DataID) : Bool :=
  !(constrainedMissingB q d) && !(valueFailB q d)

/-- Every numeric field value of the candidate is nonnegative — the setting
in which the large-constant lower bound actually holds. -/
def nonnegFieldsB (d : DataID) : Bool :=
  d.fields.all (fun p => match p.2 with | .num n => ratLeB 0 n | _ => true)

/-- Claim C1 at a query and candidate list: in the returned ranking, every
candidate missing a constrained field has distance at least 100000, every
allowed-value failure has distance infinity, and every infeasible candidate
comes strictly later, with strictly larger distance, than every feasible
one. -/
def claimC1At (q : List (String × Value)) (ids : List DataID) : Prop :=
  ∀ out dists, sortDataids q ids = .ok (out, dists) →
    ∀ j, (hj : j < out.length) → (hjd : j < dists.length) →
      (constrainedMissingB q (out.get ⟨j, hj⟩) = true →
        distLeB (.fin 100000) (dists.get ⟨j, hjd⟩) = true) ∧
      (valueFailB q (out.get ⟨j, hj⟩) = true → dists.get ⟨j, hjd⟩ = .inf) ∧
      (∀ i, (hi : i < out.length) → (hid : i < dists.length) →
        feasibleB q (out.get ⟨i, hi⟩) = true →
        (constrainedMissingB q (out.get ⟨j, hj⟩) ||
          valueFailB q (out.get ⟨j, hj⟩)) = true →
        i < j ∧ distLtB (dists.get ⟨i, hid⟩) (dists.get ⟨j, hjd⟩) = true)

/-- Query of the C1 counterexample: `resolution` is explicitly wildcarded,
`name` is constrained to the string `a`. -/
def exQ : List (String × Value) := [("res", .str "*"), ("name", .str "a")]

/-- Feasible candidate: has the constrained `name` and a large resolution,
which the wildcard branch adds to the distance in full. -/
def exIdA : DataID :=
  ⟨[("name", none), ("res", none)], [("name", none), ("res", none)],
   [("name", .str "a"), ("res", .num 200000)]⟩

/-- Infeasible candidate: lacks the constrained `name` entirely, and carries a
negative resolution that the wildcard branch adds before the missing-field
break. -/
def exIdB : DataID :=
  ⟨[("name", none), ("res", none)], [("name", none), ("res", none)],
   [("res", .num (-5))]⟩

/-- Counterexample to C1 as stated: candidate `exIdB` lacks the constrained
`name` field, yet its reported distance is `100000 - 5 = 99995` (its negative
resolution is added by the wildcard branch before the missing-field break),
below the large constant, and it ranks strictly BEFORE the feasible `exIdA`,
whose wildcard-counted resolution 200000 dominates. -/
theorem sortDataids_infeasible_counterexample : ¬ claimC1At exQ [exIdA, exIdB] := by
  intro h
  have hstr : strLtB "" "a" = true := by decide
  have hlt : idLt exIdB exIdA = .ok true := by
    simp [idLt, idLtLists, exIdA, exIdB, alookup, zeroSub, pyLtSeq, pyLt, strEqVal,
      hstr, Bind.bind, Except.bind]
  have hdB : distLoop exQ exIdB ["res", "name"] (.fin 0) = .ok (.fin 99995) := by
    simp [distLoop, exQ, exIdB, qval, alookup, isWildcard, strEqVal, Dist.add,
      ratAdd_eq_add]
    norm_num
  have hdA : distLoop exQ exIdA ["res", "name"] (.fin 0) = .ok (.fin 200000) := by
    simp [distLoop, exQ, exIdA, qval, alookup, isWildcard, strEqVal, Dist.add,
      ratAdd_eq_add, pyContains, normalizeQVal]
  have hks : allKeys exQ [exIdA, exIdB] = ["res", "name"] := by
    simp [allKeys, exQ, exIdA, exIdB, addKey]
  have hpre : pySortIds [exIdA, exIdB] = .ok [exIdB, exIdA] := by
    simp [pySortIds, List.foldlM, insertById, hlt, Bind.bind, Except.bind, pure,
      Except.pure]
  have hpairs : distPairs exQ ["res", "name"] [exIdB, exIdA] =
      .ok [(.fin 99995, exIdB), (.fin 200000, exIdA)] := by
    simp [distPairs, hdB, hdA, Bind.bind, Except.bind]
  have hrlt : ratLtB (200000 : Rat) 99995 = false := by decide
  have hsp : sortPairs [((.fin 99995 : Dist), exIdB), (.fin 200000, exIdA)] =
      [((.fin 99995 : Dist), exIdB), (.fin 200000, exIdA)] := by
    simp [sortPairs, insertPairLe, distLeB, distLtB, hrlt]
  have hsort : sortDataids exQ [exIdA, exIdB] =
      .ok ([exIdB, exIdA], [.fin 99995, .fin 200000]) := by
    simp [sortDataids, hks, hpre, hpairs, hsp, Bind.bind, Except.bind]
  have hfeasA : feasibleB exQ exIdA = true := by
    simp [feasibleB, constrainedMissingB, valueFailB, exQ, exIdA, alookup,
      isWildcard, strEqVal, pyContains, normalizeQVal]
  have hinfB : (constrainedMissingB exQ exIdB || valueFailB exQ exIdB) = true := by
    simp [constrainedMissingB, valueFailB, exQ, exIdB, alookup, isWildcard, strEqVal]
  have happ := (h [exIdB, exIdA] [.fin 99995, .fin 200000] hsort 0 (by decide)
    (by decide)).2.2 1 (by decide) (by decide) hfeasA hinfB
  exact absurd happ.1 (by decide)

theorem bool_not_true {b : Bool} (h : (!b) = true) : b = false := by
  cases b
  · rfl
  · exact Bool.noConfusion h

theorem any_false_elem {α : Type} {l : List α} {p : α → Bool} (h : l.any p = false)
    {x : α} (hx : x ∈ l) : p x = false := by
  cases hp : p x
  · rfl
  · have := List.any_eq_true.mpr ⟨x, hx, hp⟩
    rw [h] at this
    exact Bool.noConfusion this

theorem alookup_mem {α : Type} :
    ∀ (l : List (String × α)) (k : String) (v : α),
      alookup l k = some v → (k, v) ∈ l := by
  intro l
  induction l with
  | nil => intro k v h ; exact Option.noConfusion h
  | cons p rest ih =>
      intro k v h
      obtain ⟨k1, v1⟩ := p
      rw [alookup] at h
      by_cases hk : (k1 == k) = true
      · rw [if_pos hk] at h
        rw [← eq_of_beq hk, ← Option.some.inj h]
        exact List.mem_cons_self _ _
      · rw [if_neg hk] at h
        exact List.mem_cons_of_mem _ (ih k v h)

theorem alookup_of_mem_nodup {α : Type} :
    ∀ (l : List (String × α)), (l.map Prod.fst).Nodup →
      ∀ p ∈ l, alookup l p.1 = some p.2 := by
  intro l
  induction l with
  | nil => intro _ p hp ; exact absurd hp (List.not_mem_nil p)
  | cons x rest ih =>
      intro hnd p hp
      rw [List.map_cons] at hnd
      rcases List.mem_cons.mp hp with rfl | hp2
      · exact alookup_cons_self p.1 p.2 rest
      · have hne : (x.1 == p.1) = false := by
          cases hb : x.1 == p.1
          · rfl
          · have hx : x.1 = p.1 := eq_of_beq hb
            rw [hx] at hnd
            exact absurd (List.mem_map_of_mem Prod.fst hp2) (List.nodup_cons.mp hnd).1
        exact Eq.trans (alookup_cons_ne x.1 p.1 x.2 rest hne)
          (ih (List.Nodup.of_cons hnd) p hp2)

theorem qval_of_mem_nodup (q : List (String × Value)) (hq : (q.map Prod.fst).Nodup)
    (p : String × Value) (hp : p ∈ q) : qval q p.1 = p.2 := by
  simp only [qval, alookup_of_mem_nodup q hq p hp, Option.getD_some]

theorem qval_of_absent (q : List (String × Value)) (k : String)
    (h : alookup q k = none) : qval q k = .str "*" := by
  simp only [qval, h, Option.getD_none]

theorem isWildcard_star : isWildcard (.str "*") = true := by
  simp [isWildcard, strEqVal]

/-- Nonnegativity of a distance value. -/
def distNNB : Dist → Bool
  | .fin a => ratLeB 0 a
  | .inf => true

theorem distNNB_add (a b : Dist) (ha : distNNB a = true) (hb : distNNB b = true) :
    distNNB (a.add b) = true := by
  cases a with
  | inf => rfl
  | fin x =>
      cases b with
      | inf => rfl
      | fin y =>
          simp only [distNNB] at ha hb
          show ratLeB 0 (ratAdd x y) = true
          rw [ratLeB_iff] at ha hb ⊢
          rw [ratAdd_eq_add]
          exact add_nonneg ha hb

theorem wlSeqCentralDist_nn (c : Rat) (l : List Value) (dd : Dist)
    (h : wlSeqCentralDist c l = .ok dd) : distNNB dd = true := by
  simp only [wlSeqCentralDist] at h
  split at h
  · cases Except.ok.inj h
    show ratLeB 0 _ = true
    rw [ratLeB_iff]
    exact ratAbs_nonneg _
  · cases Except.ok.inj h
    show ratLeB 0 _ = true
    rw [ratLeB_iff]
    exact ratAbs_nonneg _
  · exact Except.noConfusion h

theorem wlDistance_nn (m c M : Rat) (u : String) (v : Value) (dd : Dist)
    (h : wlDistance m c M u v = .ok dd) : distNNB dd = true := by
  rw [wlDistance.eq_def] at h
  by_cases he : valueEq (.wl m c M u) v = true
  · rw [if_pos he] at h
    cases v with
    | num n =>
        cases Except.ok.inj h
        show ratLeB 0 _ = true
        rw [ratLeB_iff]
        exact ratAbs_nonneg _
    | enumV s o =>
        cases Except.ok.inj h
        show ratLeB 0 _ = true
        rw [ratLeB_iff]
        exact ratAbs_nonneg _
    | wl m2 c2 M2 u2 =>
        cases Except.ok.inj h
        show ratLeB 0 _ = true
        rw [ratLeB_iff]
        exact ratAbs_nonneg _
    | tup l => exact wlSeqCentralDist_nn c l dd h
    | modT l => exact wlSeqCentralDist_nn c l dd h
    | list l => exact wlSeqCentralDist_nn c l dd h
    | str s => exact Except.noConfusion h
    | null => exact Except.noConfusion h
  · rw [if_neg he] at h
    cases Except.ok.inj h
    rfl

theorem nonneg_field_num (d : DataID) (hnn : nonnegFieldsB d = true) (k : String) (n : Rat)
    (h : alookup d.fields k = some (.num n)) : ratLeB 0 n = true := by
  have hm := alookup_mem d.fields k (.num n) h
  exact List.all_eq_true.mp hnn _ hm

/-- Accumulation lower bound of the missing-field break: whenever some key of
the iterated set is constrained by the query but absent from the candidate,
and the candidate's numeric fields are nonnegative, the loop's result (if it
returns at all) is at least the large constant 100000 — the break adds 100000
to a nonnegative running total, and an earlier allowed-value failure yields
infinity. -/
theorem distLoop_missing_bound (q : List (String × Value)) (d : DataID)
    (hnn : nonnegFieldsB d = true) :
    ∀ (ks : List String) (acc : Dist), distNNB acc = true →
      (∃ k ∈ ks, isWildcard (qval q k) = false ∧ alookup d.fields k = none) →
      ∀ v, distLoop q d ks acc = .ok v → distLeB (.fin 100000) v = true := by
  intro ks
  induction ks with
  | nil =>
      rintro acc _ ⟨k, hk, _⟩ v _
      exact absurd hk (List.not_mem_nil k)
  | cons k0 ks ih =>
      rintro acc hacc ⟨k, hk, hkw, hkn⟩ v h
      rw [distLoop] at h
      by_cases hw : isWildcard (qval q k0) = true
      · rw [if_pos hw] at h
        have hk2 : k ∈ ks := by
          rcases List.mem_cons.mp hk with rfl | h2
          · rw [hw] at hkw ; exact Bool.noConfusion hkw
          · exact h2
        refine ih (acc.add _) (distNNB_add acc _ hacc ?_) ⟨k, hk2, hkw, hkn⟩ v h
        cases ho : alookup d.fields k0 with
        | none => rfl
        | some dv =>
            cases dv with
            | num n => exact nonneg_field_num d hnn k0 n ho
            | enumV s o =>
                show ratLeB 0 (o : Rat) = true
                rw [ratLeB_iff]
                exact Nat.cast_nonneg o
            | wl m c M u => rfl
            | tup l =>
                show ratLeB 0 (l.length : Rat) = true
                rw [ratLeB_iff]
                exact Nat.cast_nonneg l.length
            | modT l =>
                show ratLeB 0 (l.length : Rat) = true
                rw [ratLeB_iff]
                exact Nat.cast_nonneg l.length
            | str s => rfl
            | list l => rfl
            | null => rfl
      · rw [if_neg hw] at h
        cases ho : alookup d.fields k0 with
        | none =>
            simp only [ho] at h
            cases Except.ok.inj h
            cases acc with
            | inf => rfl
            | fin a =>
                simp only [distNNB] at hacc
                rw [ratLeB_iff] at hacc
                show (!(ratLtB (ratAdd a 100000) 100000)) = true
                rw [ratAdd_eq_add]
                cases hlt2 : ratLtB (a + 100000) 100000
                · rfl
                · exfalso
                  rw [ratLtB_iff] at hlt2
                  linarith
        | some dv =>
            simp only [ho] at h
            have hk2 : k ∈ ks := by
              rcases List.mem_cons.mp hk with rfl | h2
              · rw [hkn] at ho ; exact Option.noConfusion ho
              · exact h2
            split at h
            · obtain ⟨dd, hdd, h2⟩ := exceptBind_ok h
              exact ih (acc.add dd)
                (distNNB_add acc dd hacc (wlDistance_nn _ _ _ _ _ dd hdd))
                ⟨k, hk2, hkw, hkn⟩ v h2
            · split at h
              · cases Except.ok.inj h ; rfl
              · refine ih _ (distNNB_add acc _ hacc ?_) ⟨k, hk2, hkw, hkn⟩ v h
                cases dv with
                | num n => exact nonneg_field_num d hnn k0 n ho
                | enumV s o =>
                    show ratLeB 0 (o : Rat) = true
                    rw [ratLeB_iff]
                    exact Nat.cast_nonneg o
                | wl m c M u => rfl
                | tup l => rfl
                | modT l => rfl
                | str s => rfl
                | list l => rfl
                | null => rfl

/-- Infinite distance of an allowed-value failure: when every constrained key
of the iterated set is present on the candidate, and some constrained key's
(non-`WavelengthRange`) candidate value fails the allowed-value check, the
loop (if it returns) reports `np.inf`. -/
theorem distLoop_valueFail (q : List (String × Value)) (d : DataID) :
    ∀ (ks : List String) (acc : Dist),
      (∃ k ∈ ks, isWildcard (qval q k) = false ∧
        ∃ dv, alookup d.fields k = some dv ∧
          (match dv with | .wl _ _ _ _ => False | _ => True) ∧
          pyContains (normalizeQVal (qval q k)) dv = false) →
      (∀ k2 ∈ ks, isWildcard (qval q k2) = false → (alookup d.fields k2).isSome = true) →
      ∀ v, distLoop q d ks acc = .ok v → v = .inf := by
  intro ks
  induction ks with
  | nil =>
      rintro acc ⟨k, hk, _⟩ _ v _
      exact absurd hk (List.not_mem_nil k)
  | cons k0 ks ih =>
      rintro acc ⟨k, hk, hkw, dv, hdv, hshape, hpcf⟩ hnm v h
      rw [distLoop] at h
      by_cases hw : isWildcard (qval q k0) = true
      · rw [if_pos hw] at h
        have hk2 : k ∈ ks := by
          rcases List.mem_cons.mp hk with rfl | h2
          · rw [hw] at hkw ; exact Bool.noConfusion hkw
          · exact h2
        exact ih _ ⟨k, hk2, hkw, dv, hdv, hshape, hpcf⟩
          (fun k2 h2k hcw => hnm k2 (List.mem_cons_of_mem _ h2k) hcw) v h
      · rw [if_neg hw] at h
        cases ho : alookup d.fields k0 with
        | none =>
            have hwf : isWildcard (qval q k0) = false := by
              cases hwb : isWildcard (qval q k0)
              · rfl
              · exact absurd hwb hw
            have := hnm k0 (List.mem_cons_self _ _) hwf
            rw [ho] at this
            exact Bool.noConfusion this
        | some dv0 =>
            simp only [ho] at h
            split at h
            · obtain ⟨dd, hdd, h2⟩ := exceptBind_ok h
              have hk2 : k ∈ ks := by
                rcases List.mem_cons.mp hk with rfl | h2m
                · have hdd2 := Option.some.inj (hdv.symm.trans ho)
                  rw [hdd2] at hshape
                  exact hshape.elim
                · exact h2m
              exact ih _ ⟨k, hk2, hkw, dv, hdv, hshape, hpcf⟩
                (fun k2 h2k hcw => hnm k2 (List.mem_cons_of_mem _ h2k) hcw) v h2
            · split at h
              · cases Except.ok.inj h ; rfl
              · rename_i hpc
                have hk2 : k ∈ ks := by
                  rcases List.mem_cons.mp hk with rfl | h2m
                  · have hdd2 := Option.some.inj (hdv.symm.trans ho)
                    rw [hdd2] at hpcf
                    exact absurd (by rw [hpcf] ; rfl) hpc
                  · exact h2m
                exact ih _ ⟨k, hk2, hkw, dv, hdv, hshape, hpcf⟩
                  (fun k2 h2k hcw => hnm k2 (List.mem_cons_of_mem _ h2k) hcw) v h

theorem mem_insertPairLe (p x : Dist × DataID) (l : List (Dist × DataID)) :
    x ∈ insertPairLe p l ↔ x ∈ p :: l := by
  induction l with
  | nil => rw [insertPairLe]
  | cons y ys ih =>
      rw [insertPairLe]
      by_cases hle : distLeB p.1 y.1 = true
      · rw [if_pos hle]
      · rw [if_neg hle]
        rw [List.mem_cons, ih, List.mem_cons, List.mem_cons, List.mem_cons]
        tauto

theorem mem_sortPairs (l : List (Dist × DataID)) (x : Dist × DataID) :
    x ∈ sortPairs l ↔ x ∈ l := by
  induction l with
  | nil => exact Iff.rfl
  | cons p ps ih =>
      rw [sortPairs, mem_insertPairLe, List.mem_cons, ih, List.mem_cons]

theorem distLeB_refl (a : Dist) : distLeB a a = true := by
  cases a with
  | inf => rfl
  | fin x =>
      show (!(ratLtB x x)) = true
      rw [ratLtB_self x]
      rfl

theorem distLeB_total_of_false (a b : Dist) (h : distLeB a b = false) :
    distLeB b a = true := by
  cases a with
  | inf =>
      cases b with
      | inf => exact Bool.noConfusion h
      | fin y => rfl
  | fin x =>
      cases b with
      | inf => exact Bool.noConfusion h
      | fin y =>
          show (!(ratLtB x y)) = true
          cases hxy : ratLtB x y
          · rfl
          · cases hyx : ratLtB y x
            · rw [show distLeB (.fin x) (.fin y) = !(ratLtB y x) from rfl, hyx] at h
              exact Bool.noConfusion h
            · exfalso
              rw [ratLtB_iff] at hxy hyx
              exact absurd hxy (not_lt.mpr (le_of_lt hyx))

theorem distLeB_trans (a b c : Dist) (h1 : distLeB a b = true) (h2 : distLeB b c = true) :
    distLeB a c = true := by
  cases a with
  | inf =>
      cases b with
      | fin y => exact Bool.noConfusion h1
      | inf =>
          cases c with
          | fin z => exact Bool.noConfusion h2
          | inf => rfl
  | fin x =>
      cases c with
      | inf => rfl
      | fin z =>
          cases b with
          | inf => exact Bool.noConfusion h2
          | fin y =>
              show (!(ratLtB z x)) = true
              have hx : ratLtB y x = false := by
                cases hx : ratLtB y x
                · rfl
                · rw [show distLeB (.fin x) (.fin y) = !(ratLtB y x) from rfl, hx] at h1
                  exact Bool.noConfusion h1
              have hy : ratLtB z y = false := by
                cases hy : ratLtB z y
                · rfl
                · rw [show distLeB (.fin y) (.fin z) = !(ratLtB z y) from rfl, hy] at h2
                  exact Bool.noConfusion h2
              cases hz : ratLtB z x
              · rfl
              · exfalso
                rw [ratLtB_iff] at hz
                have hyx : x ≤ y := le_of_not_lt (fun hlt => by
                  rw [(ratLtB_iff y x).mpr hlt] at hx ; exact Bool.noConfusion hx)
                have hzy : y ≤ z := le_of_not_lt (fun hlt => by
                  rw [(ratLtB_iff z y).mpr hlt] at hy ; exact Bool.noConfusion hy)
                linarith

theorem distLeB_distLtB_false (a b : Dist) (h : distLeB a b = true) :
    distLtB b a = false := by
  cases hx : distLtB b a
  · rfl
  · rw [show distLeB a b = !(distLtB b a) from rfl, hx] at h
    exact Bool.noConfusion h

theorem pairwise_insertPairLe (p : Dist × DataID) (l : List (Dist × DataID))
    (hl : l.Pairwise (fun a b => distLeB a.1 b.1 = true)) :
    (insertPairLe p l).Pairwise (fun a b => distLeB a.1 b.1 = true) := by
  induction l with
  | nil => simp [insertPairLe]
  | cons y ys ih =>
      rw [List.pairwise_cons] at hl
      rw [insertPairLe]
      by_cases hle : distLeB p.1 y.1 = true
      · rw [if_pos hle]
        rw [List.pairwise_cons]
        refine ⟨?_, List.pairwise_cons.mpr hl⟩
        intro z hz
        rcases List.mem_cons.mp hz with rfl | hz2
        · exact hle
        · exact distLeB_trans p.1 y.1 z.1 hle (hl.1 z hz2)
      · rw [if_neg hle]
        rw [List.pairwise_cons]
        refine ⟨?_, ih hl.2⟩
        intro z hz
        rcases List.mem_cons.mp ((mem_insertPairLe p z ys).mp hz) with rfl | hz2
        · refine distLeB_total_of_false z.1 y.1 ?_
          cases hx : distLeB z.1 y.1
          · rfl
          · exact absurd hx hle
        · exact hl.1 z hz2

theorem pairwise_sortPairs (l : List (Dist × DataID)) :
    (sortPairs l).Pairwise (fun a b => distLeB a.1 b.1 = true) := by
  induction l with
  | nil => exact List.Pairwise.nil
  | cons p ps ih =>
      rw [sortPairs]
      exact pairwise_insertPairLe p _ ih

theorem distPairs_pairing (q : List (String × Value)) (ks : List String) :
    ∀ (ds : List DataID) (pairs : List (Dist × DataID)),
      distPairs q ks ds = .ok pairs →
      ∀ p ∈ pairs, distLoop q p.2 ks (.fin 0) = .ok p.1 := by
  intro ds
  induction ds with
  | nil =>
      intro pairs h p hp
      rw [distPairs] at h
      rw [← Except.ok.inj h] at hp
      exact absurd hp (List.not_mem_nil p)
  | cons d0 ds ih =>
      intro pairs h p hp
      rw [distPairs] at h
      obtain ⟨v, hv, h2⟩ := exceptBind_ok h
      obtain ⟨rest, hrest, h3⟩ := exceptBind_ok h2
      rw [← Except.ok.inj h3] at hp
      rcases List.mem_cons.mp hp with rfl | hp2
      · exact hv
      · exact ih rest hrest p hp2

theorem mem_addKey (acc : List String) (k x : String) :
    x ∈ addKey acc k ↔ x ∈ acc ∨ x = k := by
  rw [addKey]
  by_cases hm : k ∈ acc
  · rw [if_pos hm]
    exact ⟨Or.inl, fun h => h.elim id (fun hx => hx ▸ hm)⟩
  · rw [if_neg hm]
    simp

theorem mem_foldl_addKey_str :
    ∀ (l : List String) (acc : List String) (x : String),
      x ∈ l.foldl addKey acc ↔ x ∈ acc ∨ x ∈ l := by
  intro l
  induction l with
  | nil => intro acc x ; simp
  | cons a as ih =>
      intro acc x
      rw [List.foldl_cons, ih, mem_addKey, List.mem_cons]
      tauto

theorem mem_fieldsFold :
    ∀ (l : List (String × Value)) (acc : List String) (x : String),
      x ∈ acc → x ∈ l.foldl (fun a p => addKey a p.1) acc := by
  intro l
  induction l with
  | nil => intro acc x hx ; exact hx
  | cons p ps ih =>
      intro acc x hx
      rw [List.foldl_cons]
      exact ih _ x ((mem_addKey acc p.1 x).mpr (Or.inl hx))

theorem mem_idsFold :
    ∀ (ids : List DataID) (acc : List String) (x : String), x ∈ acc →
      x ∈ ids.foldl (fun a d => d.fields.foldl (fun a2 p => addKey a2 p.1) a) acc := by
  intro ids
  induction ids with
  | nil => intro acc x hx ; exact hx
  | cons d ds ih =>
      intro acc x hx
      rw [List.foldl_cons]
      exact ih _ x (mem_fieldsFold d.fields acc x hx)

theorem mem_allKeys_of_q (q : List (String × Value)) (ids : List DataID) (x : String)
    (hx : x ∈ q.map Prod.fst) : x ∈ allKeys q ids :=
  mem_idsFold ids _ x ((mem_foldl_addKey_str (q.map Prod.fst) [] x).mpr (Or.inr hx))

/-- Claim C1 (amended): in a successful `sort_dataids` ranking over a query
with distinct keys, (1) a candidate with nonnegative numeric fields that lacks
a constrained field reports a distance of at least the large constant 100000
(the bound FAILS for negative field values, as the counterexample shows);
(2) a candidate that fails an allowed-value check while missing no constrained
field reports distance infinity; (3) the reported distances are ascending;
(4) each position's distance is exactly the accumulation loop's result for
that position's candidate; and (5) a feasible candidate whose distance is
strictly below 100000 comes strictly BEFORE every infeasible candidate with
nonnegative numeric fields — but not before infeasible candidates in general,
which is why C1 as stated is false. -/
theorem sortDataids_infeasible_ranking (q : List (String × Value)) (ids : List DataID)
    (out : List DataID) (dists : List Dist)
    (hq : (q.map Prod.fst).Nodup)
    (hok : sortDataids q ids = .ok (out, dists)) :
    (∀ j, (hj : j < out.length) → (hjd : j < dists.length) →
        nonnegFieldsB (out.get ⟨j, hj⟩) = true →
        constrainedMissingB q (out.get ⟨j, hj⟩) = true →
        distLeB (.fin 100000) (dists.get ⟨j, hjd⟩) = true) ∧
    (∀ j, (hj : j < out.length) → (hjd : j < dists.length) →
        constrainedMissingB q (out.get ⟨j, hj⟩) = false →
        valueFailB q (out.get ⟨j, hj⟩) = true →
        dists.get ⟨j, hjd⟩ = .inf) ∧
    (∀ i j, (hi : i < dists.length) → (hj : j < dists.length) → i ≤ j →
        distLeB (dists.get ⟨i, hi⟩) (dists.get ⟨j, hj⟩) = true) ∧
    (∀ i, (hi : i < out.length) → (hid : i < dists.length) →
        distLoop q (out.get ⟨i, hi⟩) (allKeys q ids) (.fin 0) = .ok (dists.get ⟨i, hid⟩)) ∧
    (∀ i j, (hi : i < out.length) → (hid : i < dists.length) → (hj : j < out.length) →
        (hjd : j < dists.length) →
        feasibleB q (out.get ⟨i, hi⟩) = true →
        distLtB (dists.get ⟨i, hid⟩) (.fin 100000) = true →
        nonnegFieldsB (out.get ⟨j, hj⟩) = true →
        (constrainedMissingB q (out.get ⟨j, hj⟩) ||
          valueFailB q (out.get ⟨j, hj⟩)) = true →
        i < j) := by
  simp only [sortDataids] at hok
  obtain ⟨pre, hpre, h2⟩ := exceptBind_ok hok
  obtain ⟨pairs, hpairs, h3⟩ := exceptBind_ok h2
  cases pairs with
  | nil => exact Except.noConfusion h3
  | cons p0 prest =>
      have h4 := Except.ok.inj h3
      injection h4 with ho1 ho2
      subst ho1
      subst ho2
      have hsorted := pairwise_sortPairs (p0 :: prest)
      have hpair : ∀ x ∈ sortPairs (p0 :: prest),
          distLoop q x.2 (allKeys q ids) (.fin 0) = .ok x.1 :=
        fun x hx => distPairs_pairing q (allKeys q ids) pre (p0 :: prest) hpairs x
          ((mem_sortPairs _ x).mp hx)
      have hgetS : ∀ (n : Nat)
          (hn : n < ((sortPairs (p0 :: prest)).map Prod.snd).length),
          ((sortPairs (p0 :: prest)).map Prod.snd).get ⟨n, hn⟩ =
          ((sortPairs (p0 :: prest)).get ⟨n, by simpa using hn⟩).2 := by
        intro n hn
        simp [List.get_eq_getElem, List.getElem_map]
      have hgetF : ∀ (n : Nat)
          (hn : n < ((sortPairs (p0 :: prest)).map Prod.fst).length),
          ((sortPairs (p0 :: prest)).map Prod.fst).get ⟨n, hn⟩ =
          ((sortPairs (p0 :: prest)).get ⟨n, by simpa using hn⟩).1 := by
        intro n hn
        simp [List.get_eq_getElem, List.getElem_map]
      have hnomiss : ∀ (d : DataID), constrainedMissingB q d = false →
          ∀ k2 ∈ allKeys q ids, isWildcard (qval q k2) = false →
            (alookup d.fields k2).isSome = true := by
        intro d hmiss k2 _ hcw
        cases halo : alookup q k2 with
        | none =>
            rw [qval_of_absent q k2 halo, isWildcard_star] at hcw
            exact Bool.noConfusion hcw
        | some v2 =>
            have hmem := alookup_mem q k2 v2 halo
            have h6 := any_false_elem hmiss hmem
            have hqv : qval q k2 = v2 := by
              simp only [qval, halo, Option.getD_some]
            rw [hqv] at hcw
            cases hs : (alookup d.fields k2).isSome
            · exfalso
              rw [hcw, hs] at h6
              exact Bool.noConfusion h6
            · rfl
      have H1 : ∀ (j : Nat) (hj : j < (sortPairs (p0 :: prest)).length),
          nonnegFieldsB ((sortPairs (p0 :: prest)).get ⟨j, hj⟩).2 = true →
          constrainedMissingB q ((sortPairs (p0 :: prest)).get ⟨j, hj⟩).2 = true →
          distLeB (.fin 100000) ((sortPairs (p0 :: prest)).get ⟨j, hj⟩).1 = true := by
        intro j hj hnn hmiss
        have hdl := hpair _ (List.get_mem (sortPairs (p0 :: prest)) j hj)
        obtain ⟨pm, hpm, hb⟩ := List.any_eq_true.mp hmiss
        simp only [Bool.and_eq_true] at hb
        obtain ⟨hb1, hb2⟩ := hb
        have hw1 : isWildcard pm.2 = false := bool_not_true hb1
        have hw2 : alookup ((sortPairs (p0 :: prest)).get ⟨j, hj⟩).2.fields pm.1 = none := by
          have h5 := bool_not_true hb2
          cases hlo : alookup ((sortPairs (p0 :: prest)).get ⟨j, hj⟩).2.fields pm.1
          · rfl
          · rw [hlo] at h5
            exact Bool.noConfusion h5
        refine distLoop_missing_bound q _ hnn (allKeys q ids) (.fin 0) rfl
          ⟨pm.1, mem_allKeys_of_q q ids pm.1 (List.mem_map_of_mem Prod.fst hpm), ?_, hw2⟩
          _ hdl
        rw [qval_of_mem_nodup q hq pm hpm]
        exact hw1
      have H2 : ∀ (j : Nat) (hj : j < (sortPairs (p0 :: prest)).length),
          constrainedMissingB q ((sortPairs (p0 :: prest)).get ⟨j, hj⟩).2 = false →
          valueFailB q ((sortPairs (p0 :: prest)).get ⟨j, hj⟩).2 = true →
          ((sortPairs (p0 :: prest)).get ⟨j, hj⟩).1 = .inf := by
        intro j hj hmiss hvf
        have hdl := hpair _ (List.get_mem (sortPairs (p0 :: prest)) j hj)
        obtain ⟨pm, hpm, hb⟩ := List.any_eq_true.mp hvf
        simp only [Bool.and_eq_true] at hb
        obtain ⟨hb1, hb2⟩ := hb
        have hw1 : isWildcard pm.2 = false := bool_not_true hb1
        have hqv : qval q pm.1 = pm.2 := qval_of_mem_nodup q hq pm hpm
        cases hlo : alookup ((sortPairs (p0 :: prest)).get ⟨j, hj⟩).2.fields pm.1 with
        | none =>
            simp only [hlo] at hb2
            exact Bool.noConfusion hb2
        | some dv =>
            simp only [hlo] at hb2
            cases dv <;>
              first
              | exact Bool.noConfusion hb2
              | exact distLoop_valueFail q _ (allKeys q ids) (.fin 0)
                  ⟨pm.1, mem_allKeys_of_q q ids pm.1 (List.mem_map_of_mem Prod.fst hpm),
                    by rw [hqv] ; exact hw1, _, hlo, True.intro,
                    by rw [hqv] ; exact bool_not_true hb2⟩
                  (hnomiss _ hmiss) _ hdl
      have H3 : ∀ (i j : Nat) (hi : i < (sortPairs (p0 :: prest)).length)
          (hj : j < (sortPairs (p0 :: prest)).length), i ≤ j →
          distLeB ((sortPairs (p0 :: prest)).get ⟨i, hi⟩).1
            ((sortPairs (p0 :: prest)).get ⟨j, hj⟩).1 = true := by
        intro i j hi hj hij
        rcases Nat.lt_or_ge i j with hlt | hge
        · exact (List.pairwise_iff_get.mp hsorted) ⟨i, hi⟩ ⟨j, hj⟩ hlt
        · have hij2 : i = j := le_antisymm hij hge
          subst hij2
          exact distLeB_refl _
      refine ⟨?_, ?_, ?_, ?_, ?_⟩
      · intro j hj hjd hnn hmiss
        rw [hgetS j hj] at hnn hmiss
        rw [hgetF j hjd]
        exact H1 j _ hnn hmiss
      · intro j hj hjd hmiss hvf
        rw [hgetS j hj] at hmiss hvf
        rw [hgetF j hjd]
        exact H2 j _ hmiss hvf
      · intro i j hi hj hij
        rw [hgetF i hi, hgetF j hj]
        exact H3 i j _ _ hij
      · intro i hi hid
        rw [hgetS i hi, hgetF i hid]
        exact hpair _ (List.get_mem (sortPairs (p0 :: prest)) i _)
      · intro i j hi hid hj hjd hfeas hlt hnnj hinf
        rw [hgetS j hj] at hnnj hinf
        rw [hgetF i hid] at hlt
        by_contra hnij
        have hji : j ≤ i := Nat.le_of_not_lt hnij
        have hchain := H3 j i (by simpa using hjd) (by simpa using hid) hji
        cases hmj : constrainedMissingB q
            ((sortPairs (p0 :: prest)).get ⟨j, by simpa using hjd⟩).2 with
        | true =>
            have hbound := H1 j (by simpa using hjd)
              (by exact hnnj) hmj
            have hc := distLeB_trans (.fin 100000) _ _ hbound hchain
            have hf := distLeB_distLtB_false _ _ hc
            rw [hlt] at hf
            exact Bool.noConfusion hf
        | false =>
            rw [show ((sortPairs (p0 :: prest)).get ⟨j, by simpa using hj⟩) =
                ((sortPairs (p0 :: prest)).get ⟨j, by simpa using hjd⟩) from rfl] at hinf
            rw [hmj, Bool.false_or] at hinf
            have hj2 := H2 j (by simpa using hjd) hmj hinf
            rw [hj2] at hchain
            cases hdeq : ((sortPairs (p0 :: prest)).get ⟨i, by simpa using hid⟩).1 with
            | inf =>
                rw [hdeq] at hlt
                exact Bool.noConfusion hlt
            | fin a =>
                rw [hdeq] at hchain
                exact Bool.noConfusion hchain

/-- The amended ranking theorem applied at a concrete one-candidate instance:
the query constrains `name`, the single candidate matches it at distance 0,
and the ascending-distances conjunct is read off at position 0. -/
theorem sortDataids_infeasible_ranking_witness :
    distLeB (([(Dist.fin 0 : Dist)]).get ⟨0, by decide⟩)
      (([(Dist.fin 0 : Dist)]).get ⟨0, by decide⟩) = true := by
  have hd : distLoop [("name", Value.str "a")]
      ⟨[("name", none)], [("name", none)], [("name", Value.str "a")]⟩ ["name"] (.fin 0) =
      .ok (.fin 0) := by
    simp [distLoop, qval, alookup, isWildcard, strEqVal, pyContains, normalizeQVal,
      Dist.add, ratAdd_eq_add]
  have hsort : sortDataids [("name", Value.str "a")]
      [⟨[("name", none)], [("name", none)], [("name", Value.str "a")]⟩] =
      .ok ([⟨[("name", none)], [("name", none)], [("name", Value.str "a")]⟩],
        [.fin 0]) := by
    simp [sortDataids, allKeys, addKey, pySortIds, List.foldlM, insertById, distPairs,
      hd, sortPairs, insertPairLe, distLeB, distLtB, Bind.bind, Except.bind, pure,
      Except.pure]
  exact (sortDataids_infeasible_ranking [("name", Value.str "a")]
    [⟨[("name", none)], [("name", none)], [("name", Value.str "a")]⟩]
    [⟨[("name", none)], [("name", none)], [("name", Value.str "a")]⟩] [.fin 0]
    (by simp) hsort).2.2.1 0 0 (by decide) (by decide) (Nat.le_refl 0)

/-! Claim C8: the array-identity rule of the metadata combiner. -/

theorem addKey_nodup (acc : List String) (k : String) (h : acc.Nodup) :
    (addKey acc k).Nodup := by
  rw [addKey]
  by_cases hm : k ∈ acc
  · rw [if_pos hm] ; exact h
  · rw [if_neg hm]
    simp [List.nodup_append, h, hm]

theorem foldl_addKey_nodup :
    ∀ (l : List (String × MetaVal)) (acc : List String), acc.Nodup →
      (l.foldl (fun a p => addKey a p.1) acc).Nodup := by
  intro l
  induction l with
  | nil => intro acc h ; exact h
  | cons p rest ih =>
      intro acc h
      rw [List.foldl_cons]
      exact ih (addKey acc p.1) (addKey_nodup acc p.1 h)

theorem mem_foldl_addKey :
    ∀ (l : List (String × MetaVal)) (acc : List String) (x : String),
      (x ∈ l.foldl (fun a p => addKey a p.1) acc ↔ x ∈ acc ∨ ∃ p ∈ l, p.1 = x) := by
  intro l
  induction l with
  | nil => intro acc x ; simp
  | cons q rest ih =>
      intro acc x
      rw [List.foldl_cons, ih, mem_addKey]
      constructor
      · rintro ((h | h) | h)
        · exact Or.inl h
        · exact Or.inr ⟨q, List.mem_cons_self _ _, h.symm⟩
        · obtain ⟨p, hp, hpx⟩ := h
          exact Or.inr ⟨p, List.mem_cons_of_mem _ hp, hpx⟩
      · rintro (h | ⟨p, hp, hpx⟩)
        · exact Or.inl (Or.inl h)
        · rcases List.mem_cons.mp hp with hh | hh
          · subst hh ; exact Or.inl (Or.inr hpx.symm)
          · exact Or.inr ⟨p, hh, hpx⟩

theorem combineKey_key (ds : List (List (String × MetaVal))) (avg : Bool) (k : String)
    (p : String × MetaVal) (h : combineKey ds avg k = .ok (some p)) : p.1 = k := by
  rw [combineKey] at h
  obtain ⟨share, _, h2⟩ := exceptBind_ok h
  cases share with
  | false => simp [Bool.false_eq_true, if_neg] at h2
  | true =>
      rw [if_pos rfl] at h2
      cases hv : ds.filterMap (fun d => alookup d k) with
      | nil =>
          simp only [hv] at h2
          exact Except.noConfusion h2
      | cons v0 vrest =>
          simp only [hv] at h2
          by_cases ht : (strHasSub "time" k && isDt v0 && avg) = true
          · rw [if_pos ht] at h2
            obtain ⟨m, _, h3⟩ := exceptBind_ok h2
            have := Except.ok.inj h3
            rw [← Option.some.inj this]
          · rw [if_neg ht] at h2
            have := Except.ok.inj h2
            rw [← Option.some.inj this]

theorem combineKeys_ok_each (ds : List (List (String × MetaVal))) (avg : Bool) :
    ∀ (ks : List String) (out : List (String × MetaVal)),
      combineKeys ds avg ks = .ok out →
      ∀ k ∈ ks, ∃ r, combineKey ds avg k = .ok r := by
  intro ks
  induction ks with
  | nil => intro out _ k hk ; simp at hk
  | cons k0 ks' ih =>
      intro out h k hk
      rw [combineKeys] at h
      obtain ⟨r, hr, h2⟩ := exceptBind_ok h
      obtain ⟨rest, hrest, _⟩ := exceptBind_ok h2
      rcases List.mem_cons.mp hk with hh | hh
      · subst hh ; exact ⟨r, hr⟩
      · exact ih rest hrest k hh

theorem combineKeys_keys (ds : List (List (String × MetaVal))) (avg : Bool) :
    ∀ (ks : List String) (out : List (String × MetaVal)),
      combineKeys ds avg ks = .ok out → ∀ p ∈ out, p.1 ∈ ks := by
  intro ks
  induction ks with
  | nil =>
      intro out h p hp
      rw [combineKeys] at h
      rw [← Except.ok.inj h] at hp
      simp at hp
  | cons k0 ks' ih =>
      intro out h p hp
      rw [combineKeys] at h
      obtain ⟨r, hr, h2⟩ := exceptBind_ok h
      obtain ⟨rest, hrest, h3⟩ := exceptBind_ok h2
      cases r with
      | some pair =>
          simp only [] at h3
          rw [← Except.ok.inj h3] at hp
          rcases List.mem_cons.mp hp with hh | hh
          · subst hh
            rw [combineKey_key ds avg k0 p hr]
            exact List.mem_cons_self _ _
          · exact List.mem_cons_of_mem _ (ih rest hrest p hh)
      | none =>
          simp only [] at h3
          rw [← Except.ok.inj h3] at hp
          exact List.mem_cons_of_mem _ (ih rest hrest p hp)

theorem combineKeys_mem (ds : List (List (String × MetaVal))) (avg : Bool) :
    ∀ (ks : List String) (out : List (String × MetaVal)), ks.Nodup →
      combineKeys ds avg ks = .ok out →
      ∀ k ∈ ks, ((∃ v, (k, v) ∈ out) ↔ ∃ v, combineKey ds avg k = .ok (some (k, v))) := by
  intro ks
  induction ks with
  | nil => intro out _ _ k hk ; simp at hk
  | cons k0 ks' ih =>
      intro out hnd h k hk
      rw [List.nodup_cons] at hnd
      rw [combineKeys] at h
      obtain ⟨r, hr, h2⟩ := exceptBind_ok h
      obtain ⟨rest, hrest, h3⟩ := exceptBind_ok h2
      rcases List.mem_cons.mp hk with hh | hh
      · subst hh
        cases r with
        | some pair =>
            simp only [] at h3
            rw [← Except.ok.inj h3]
            have hpk : pair.1 = k := combineKey_key ds avg k pair hr
            constructor
            · intro _
              exact ⟨pair.2, by rw [← hpk] at hr ⊢ ; simpa using hr⟩
            · intro _
              refine ⟨pair.2, List.mem_cons.mpr (Or.inl ?_)⟩
              rw [← hpk]

        | none =>
            simp only [] at h3
            rw [← Except.ok.inj h3]
            constructor
            · rintro ⟨v, hv⟩
              exact absurd (combineKeys_keys ds avg ks' rest hrest (k, v) hv) hnd.1
            · rintro ⟨v, hv⟩
              rw [hr] at hv
              exact Option.noConfusion (Except.ok.inj hv)
      · have hne : k ≠ k0 := fun hkk => hnd.1 (hkk ▸ hh)
        cases r with
        | some pair =>
            simp only [] at h3
            rw [← Except.ok.inj h3]
            have hpk : pair.1 = k0 := combineKey_key ds avg k0 pair hr
            constructor
            · rintro ⟨v, hv⟩
              rcases List.mem_cons.mp hv with hvv | hvv
              · exact absurd (by rw [← hvv] at hpk ; exact hpk.symm ▸ rfl : k = k0)
                  hne
              · exact (ih rest hnd.2 hrest k hh).mp ⟨v, hvv⟩
            · intro hex
              obtain ⟨v, hv⟩ := (ih rest hnd.2 hrest k hh).mpr hex
              exact ⟨v, List.mem_cons_of_mem _ hv⟩
        | none =>
            simp only [] at h3
            rw [← Except.ok.inj h3]
            exact ih rest hnd.2 hrest k hh

/-- C8: when the inputs of the metadata combiner all contain a key whose
values include an array-like value, the key is kept in the merged result iff
every input's value for that key is the *same object* (`is`-identity, not
content equality) as the first input's value. -/
theorem combineMetadata_array_identity (inputs : List MetaInput) (avg : Bool)
    (out : List (String × MetaVal)) (k : String)
    (d0 : List (String × MetaVal)) (drest : List (List (String × MetaVal)))
    (hds : extractDicts inputs = d0 :: drest)
    (hok : combineMetadata inputs avg = .ok out)
    (hall : ∀ d ∈ extractDicts inputs, (alookup d k).isSome = true)
    (harr : ∃ d ∈ extractDicts inputs, ∃ i, alookup d k = some (.arr i))
    (v0 : MetaVal) (hv0 : alookup d0 k = some v0) :
    ((∃ v, (k, v) ∈ out) ↔
      (drest.filterMap (fun d => alookup d k)).all (fun v => metaIs v v0) = true) := by
  rw [hds] at hall harr
  simp only [combineMetadata, hds, sharedKeysOf] at hok
  have hknd : ((d0.foldl (fun a p => addKey a p.1) []).filter
      (fun k' => drest.all (fun d => (alookup d k').isSome))).Nodup :=
    List.Nodup.filter _ (foldl_addKey_nodup d0 [] (by simp))
  have hkmem : k ∈ (d0.foldl (fun a p => addKey a p.1) []).filter
      (fun k' => drest.all (fun d => (alookup d k').isSome)) := by
    refine List.mem_filter.mpr ⟨?_, ?_⟩
    · refine (mem_foldl_addKey d0 [] k).mpr (Or.inr ?_)
      obtain ⟨p, hp, hpk⟩ := List.mem_map.mp
        (mem_of_alookup_isSome d0 k (by rw [hv0] ; rfl))
      exact ⟨p, hp, hpk⟩
    · exact List.all_eq_true.mpr (fun d hd => hall d (List.mem_cons_of_mem _ hd))
  have hmem := combineKeys_mem (d0 :: drest) avg _ out hknd hok k hkmem
  rw [hmem]
  have hvals : (d0 :: drest).filterMap (fun d => alookup d k) =
      v0 :: drest.filterMap (fun d => alookup d k) := by
    simp [hv0]
  have hany : ((d0 :: drest).filterMap (fun d => alookup d k)).any isArr = true := by
    obtain ⟨d, hd, i, hdi⟩ := harr
    exact List.any_eq_true.mpr ⟨.arr i, List.mem_filterMap.mpr ⟨d, hd, hdi⟩, rfl⟩
  have hsh : shareMetadataKey k ((d0 :: drest).filterMap (fun d => alookup d k)) avg =
      .ok ((drest.filterMap (fun d => alookup d k)).all (fun v => metaIs v v0)) := by
    rw [shareMetadataKey.eq_def]
    rw [hany]
    rw [if_pos rfl, hvals]
    rfl
  constructor
  · rintro ⟨v, hv⟩
    rw [combineKey] at hv
    obtain ⟨share, hshare, h2⟩ := exceptBind_ok hv
    rw [hsh] at hshare
    have hb := Except.ok.inj hshare
    cases hshb : (drest.filterMap (fun d => alookup d k)).all (fun v => metaIs v v0) with
    | true => rfl
    | false =>
        rw [hshb] at hb
        rw [← hb] at h2
        simp at h2
  · intro hb
    obtain ⟨r, hr⟩ := combineKeys_ok_each (d0 :: drest) avg _ out hok k hkmem
    have hr' := hr
    rw [combineKey] at hr'
    obtain ⟨share, hshare, h2⟩ := exceptBind_ok hr'
    rw [hsh] at hshare
    have hst : share = true := by rw [← Except.ok.inj hshare, hb]
    subst hst
    rw [if_pos rfl] at h2
    simp only [hvals] at h2
    by_cases ht : (strHasSub "time" k && isDt v0 && avg) = true
    · rw [if_pos ht] at h2
      obtain ⟨m, _, h3⟩ := exceptBind_ok h2
      exact ⟨m, by rw [hr, ← Except.ok.inj h3]⟩
    · rw [if_neg ht] at h2
      exact ⟨v0, by rw [hr, ← Except.ok.inj h2]⟩

/-- Witness for C8: two equal-content but distinct-identity arrays under the
shared key drop it (empty merged result, both iff sides false); the same
array object on both sides keeps it (both iff sides true). -/
theorem combineMetadata_array_identity_witness :
    ((∃ v, (("a" : String), v) ∈ ([] : List (String × MetaVal))) ↔
      ([MetaVal.arr 2].all (fun v => metaIs v (.arr 1)) = true))
    ∧ ((∃ v, (("a" : String), v) ∈ [(("a" : String), MetaVal.arr 7)]) ↔
      ([MetaVal.arr 7].all (fun v => metaIs v (.arr 7)) = true)) := by
  constructor
  · exact combineMetadata_array_identity
      [.dictIn [("a", .arr 1)], .dictIn [("a", .arr 2)]] true [] "a"
      [("a", .arr 1)] [[("a", .arr 2)]] rfl rfl
      (by
        intro d hd
        rcases List.mem_cons.mp hd with h | h
        · subst h ; rfl
        · rw [List.mem_singleton.mp h] ; rfl)
      ⟨[("a", .arr 1)], List.mem_cons_self _ _, 1, rfl⟩ (.arr 1) rfl
  · exact combineMetadata_array_identity
      [.dictIn [("a", .arr 7)], .dictIn [("a", .arr 7)]] true [("a", .arr 7)] "a"
      [("a", .arr 7)] [[("a", .arr 7)]] rfl rfl
      (by
        intro d hd
        rcases List.mem_cons.mp hd with h | h
        · subst h ; rfl
        · rw [List.mem_singleton.mp h] ; rfl)
      ⟨[("a", .arr 7)], List.mem_cons_self _ _, 7, rfl⟩ (.arr 7) rfl

/-- Witness for C2 (amended): the empty-raw shortcut yields an empty
identifier for a required-field schema, and the inclusion rule holds on a
concrete one-field construction. -/
theorem dataID_construction_amended_witness :
    DataID.build [("name", some ⟨some true, .null, none, none, none⟩)] [] =
      .ok ⟨[("name", some ⟨some true, .null, none, none, none⟩)],
           [("name", some ⟨some true, .null, none, none⟩)], []⟩
    ∧ ((alookup [(("name" : String), Value.str "a")] "name").isSome = true ↔
        inclusionTail [("name", .str "a")] ("name", some ⟨some true, .null, none, none⟩)) := by
  constructor
  · exact (dataID_construction_amended [("name", some ⟨some true, .null, none, none, none⟩)]
      []).1 [("name", some ⟨some true, .null, none, none⟩)] rfl
  · exact (dataID_construction_amended [("name", some ⟨some true, .null, none, none, none⟩)]
      [("name", .str "a")]).2.2.2.1 (by simp)
      ⟨[("name", some ⟨some true, .null, none, none, none⟩)],
       [("name", some ⟨some true, .null, none, none⟩)], [("name", .str "a")]⟩
      rfl (by simp) ("name", some ⟨some true, .null, none, none⟩) (List.mem_singleton.mpr rfl)

end SatpyModel
